import Mathlib

/-!
Shallow embedding of the conformance engine of the Synapse repository
(`internal/conformance/asyncapi.go` and the OpenAPI validator module):
schema-dialect translation (`toJSONSchema`, `convertProperties`), the
two-pass registry/compiler (`loadSpec` / `loadComponentSchemas`), the
validation facade (`ValidateMessage` / `ValidateResponse`) and the
contract-test suites (`ValidateEvent`, `RunTest`, `Summary`).

Parsed YAML/JSON documents (Go `map[string]any`) are modelled as
association lists of `String × Val`; Go map assignment `m[k] = v` is
`setKey`, map read `m[k]` is `lookup`.  A Go runtime panic (the unchecked
type assertion `val.(string)` in `toJSONSchema`) is modelled by `Option`:
`none` is the panic.  The third-party `jsonschema/v5` compiler is modelled
by its observable contract: `AddResource` stores the decoded document
under its URL, overwriting any resource already stored under the same URL
and never failing on valid JSON; `Compile` fails exactly when the
requested resource, or a resource it references, is absent.
-/

namespace Synapse

/-- A YAML/JSON-decoded value, i.e. the Go `any` trees produced by
`yaml.Unmarshal` / `json.Unmarshal`.  `vNaN` stands for the IEEE
non-finite floats (`.nan`, `.inf`) that YAML can produce and that
`json.Marshal` rejects with an `UnsupportedValueError`. -/
inductive Val where
  | vStr (s : String)
  | vInt (n : Int)
  | vBool (b : Bool)
  | vNull
  | vNaN
  | vMap (entries : List (String × Val))
  | vArr (elems : List Val)

/-- Go map read `m[key]` on an association list. -/
def lookup {α : Type} : List (String × α) → String → Option α
  | [], _ => none
  | (k, v) :: rest, key => if k = key then some v else lookup rest key

/-- Go map assignment `m[key] = val` on an association list. -/
def setKey {α : Type} : List (String × α) → String → α → List (String × α)
  | [], key, val => [(key, val)]
  | (k, v) :: rest, key, val =>
      if k = key then (key, val) :: rest else (k, v) :: setKey rest key val

/-- `strings.Split` on the single-character separator `"/"`, over the
character list: splits at every separator, keeping empty segments, and
yields `[[]]` on the empty input — exactly Go's semantics. -/
def splitOnChar (c : Char) : List Char → List (List Char)
  | [] => [[]]
  | x :: rest =>
    match splitOnChar c rest with
    | [] => [[]]
    | seg :: segs => if x = c then [] :: seg :: segs else (x :: seg) :: segs

/-- `parts := strings.Split(ref, "/"); parts[len(parts)-1]` — the last
path segment of a reference string. -/
def lastSegment (ref : String) : String :=
  String.mk ((splitOnChar '/' ref.data).getLastD [])

mutual

/-- Whether `json.Marshal` succeeds on a value: it fails exactly on
non-finite floats (`vNaN`) anywhere in the tree. -/
def marshalOk : Val → Bool
  | .vStr _ => true
  | .vInt _ => true
  | .vBool _ => true
  | .vNull => true
  | .vNaN => false
  | .vMap entries => marshalOkEntries entries
  | .vArr elems => marshalOkList elems

/-- `marshalOk` on the entries of a mapping. -/
def marshalOkEntries : List (String × Val) → Bool
  | [] => true
  | (_, v) :: rest => marshalOk v && marshalOkEntries rest

/-- `marshalOk` on the elements of a sequence. -/
def marshalOkList : List Val → Bool
  | [] => true
  | v :: rest => marshalOk v && marshalOkList rest

end

/-- The `$schema` marker attached to the root of every translated node. -/
def draftMarker : String := "https://json-schema.org/draft/2020-12/schema"

mutual

/-- `toJSONSchema` (identical in the AsyncAPI and OpenAPI validators up
to the namespace `ns`, `"synapse://asyncapi/"` resp.
`"synapse://schemas/"`): starts the result with the `$schema` marker and
walks the source entries.  `none` models the Go runtime panic of the
unchecked assertion `ref := val.(string)` on a non-string `$ref`. -/
def toJSONSchema (ns : String) (schema : List (String × Val)) :
    Option (List (String × Val)) :=
  translateLoop ns [("$schema", .vStr draftMarker)] schema

/-- The `for k, val := range schema` loop body of `toJSONSchema`:
`$ref` is rewritten to `ns ++ lastSegment ref` (panicking on a non-string
value); a map-valued `properties` / `items` is recursively translated and
a non-map one is dropped; a list-valued `allOf` is translated
element-wise and a non-list one is dropped; every other key is copied
through unchanged. -/
def translateLoop (ns : String) (acc : List (String × Val)) :
    List (String × Val) → Option (List (String × Val))
  | [] => some acc
  | (k, val) :: rest =>
    if k = "$ref" then
      match val with
      | .vStr ref =>
          translateLoop ns
            (setKey acc "$ref" (.vStr (ns ++ lastSegment ref))) rest
      | _ => none
    else if k = "properties" then
      match val with
      | .vMap props =>
          match convertProperties ns props with
          | none => none
          | some props' =>
              translateLoop ns (setKey acc "properties" (.vMap props')) rest
      | _ => translateLoop ns acc rest
    else if k = "items" then
      match val with
      | .vMap items =>
          match toJSONSchema ns items with
          | none => none
          | some items' =>
              translateLoop ns (setKey acc "items" (.vMap items')) rest
      | _ => translateLoop ns acc rest
    else if k = "allOf" then
      match val with
      | .vArr elems =>
          match convertAllOf ns elems with
          | none => none
          | some elems' =>
              translateLoop ns (setKey acc "allOf" (.vArr elems')) rest
      | _ => translateLoop ns acc rest
    else
      translateLoop ns (setKey acc k val) rest

/-- `convertProperties`: each map-valued property is translated, a
non-map property is dropped from the result. -/
def convertProperties (ns : String) :
    List (String × Val) → Option (List (String × Val))
  | [] => some []
  | (name, propDef) :: rest =>
    match propDef with
    | .vMap pm =>
        match toJSONSchema ns pm with
        | none => none
        | some t =>
            match convertProperties ns rest with
            | none => none
            | some r => some ((name, .vMap t) :: r)
    | _ => convertProperties ns rest

/-- The `allOf` element loop: `converted := make([]any, len(allOf))`
with only map elements translated — a non-map element leaves the Go zero
value `nil` in its slot, hence `vNull`. -/
def convertAllOf (ns : String) : List Val → Option (List Val)
  | [] => some []
  | item :: rest =>
    match item with
    | .vMap m =>
        match toJSONSchema ns m with
        | none => none
        | some t =>
            match convertAllOf ns rest with
            | none => none
            | some r => some (.vMap t :: r)
    | _ =>
        match convertAllOf ns rest with
        | none => none
        | some r => some (.vNull :: r)

end

/-! ## Reference collection and the modelled `jsonschema/v5` compiler -/

mutual

/-- All resource identifiers referenced by a (translated) schema node:
the string values stored under a `$ref` key, anywhere in the tree. -/
def refsOf : Val → List String
  | .vMap entries => refsOfEntries entries
  | .vArr elems => refsOfList elems
  | _ => []

/-- `refsOf` over the entries of a mapping. -/
def refsOfEntries : List (String × Val) → List String
  | [] => []
  | (k, v) :: rest =>
      (if k = "$ref" then
        match v with
        | .vStr s => [s]
        | _ => []
      else []) ++ refsOf v ++ refsOfEntries rest

/-- `refsOf` over the elements of a sequence. -/
def refsOfList : List Val → List String
  | [] => []
  | v :: rest => refsOf v ++ refsOfList rest

end

/-- The `jsonschema.Compiler`, modelled by its resource store: URLs
mapped to the decoded documents handed to `AddResource`. -/
structure Compiler where
  resources : List (String × Val)

/-- `compiler.AddResource(url, r)`: decodes the JSON (always valid here,
since the loaders pass the output of a successful `json.Marshal`) and
stores it under the URL, overwriting any resource already stored there. -/
def addResource (c : Compiler) (url : String) (doc : Val) : Compiler :=
  ⟨setKey c.resources url doc⟩

/-- `compiler.Compile(url)`: fails when the requested resource is absent,
or when it references a resource identifier that is absent; otherwise
yields the compiled schema, modelled by the stored document itself. -/
def compile (c : Compiler) (url : String) : Except String Val :=
  match lookup c.resources url with
  | none => .error ("resource not found: " ++ url)
  | some doc =>
    match (refsOf doc).find? (fun r => (lookup c.resources r).isNone) with
    | some r => .error ("reference not resolved: " ++ r)
    | none => .ok doc

/-! ## The two-pass loaders -/

/-- Load-time failures.  `panicNonStringRef` is the Go runtime panic of
`toJSONSchema` on a non-string `$ref`; `fileErr` is a failed
`os.ReadFile` / `yaml.Unmarshal` of a component schema file;
`compileErr` is `"compiling schema %s: %w"` from the second pass. -/
inductive LoadErr where
  | panicNonStringRef (name : String)
  | fileErr (fname msg : String)
  | compileErr (name msg : String)

/-- The AsyncAPI resource namespace `"synapse://asyncapi/%s"`. -/
def asyncNS : String := "synapse://asyncapi/"

/-- The OpenAPI resource namespace `"synapse://schemas/%s"`. -/
def openNS : String := "synapse://schemas/"

/-- Pass 1 (`loadSpec` / `loadComponentSchemas`, shared body): for every
named schema definition, skip it silently when it is not a mapping;
translate it (propagating the translator's panic); skip it silently when
`json.Marshal` fails on the translation; otherwise `AddResource` it under
`ns ++ name` and record the name for the second pass. -/
def registerPass (ns : String) :
    Compiler → List String → List (String × Val) →
    Except LoadErr (Compiler × List String)
  | c, names, [] => .ok (c, names)
  | c, names, (name, schemaDef) :: rest =>
    match schemaDef with
    | .vMap schemaMap =>
      match toJSONSchema ns schemaMap with
      | none => .error (.panicNonStringRef name)
      | some js =>
        if marshalOk (.vMap js) then
          registerPass ns (addResource c (ns ++ name) (.vMap js))
            (names ++ [name]) rest
        else
          registerPass ns c names rest
    | _ => registerPass ns c names rest

/-- Pass 2: compile every recorded name, aborting on the first failure
with `"compiling schema %s: %w"`, and build the `name → compiled schema`
map. -/
def compilePass (ns : String) (c : Compiler) :
    List (String × Val) → List String → Except LoadErr (List (String × Val))
  | acc, [] => .ok acc
  | acc, name :: rest =>
    match compile c (ns ++ name) with
    | .error msg => .error (.compileErr name msg)
    | .ok compiled => compilePass ns c (setKey acc name compiled) rest

/-! ## The AsyncAPI validator -/

/-- `ChannelInfo` of `asyncapi.go`. -/
structure ChannelInfo where
  name : String
  address : String
  description : String

/-- `getString` of `asyncapi.go`. -/
def getString (m : List (String × Val)) (key : String) : String :=
  match lookup m key with
  | some (.vStr s) => s
  | _ => ""

/-- The `channels` section of a parsed AsyncAPI document:
`spec["channels"].(map[string]any)`, empty when absent or not a map. -/
def specChannels (spec : List (String × Val)) : List (String × Val) :=
  match lookup spec "channels" with
  | some (.vMap m) => m
  | _ => []

/-- The `components.schemas` section of a parsed document, empty when
absent or not a map at either level. -/
def specComponentSchemas (spec : List (String × Val)) : List (String × Val) :=
  match lookup spec "components" with
  | some (.vMap comps) =>
    match lookup comps "schemas" with
    | some (.vMap s) => s
    | _ => []
  | _ => []

/-- The channel-parsing loop of `loadSpec`: every map-valued channel
definition becomes a `ChannelInfo`; others are skipped. -/
def parseChannels (chs : List (String × Val)) : List (String × ChannelInfo) :=
  chs.foldl
    (fun acc p =>
      match p.2 with
      | .vMap chMap =>
          setKey acc p.1
            ⟨p.1, getString chMap "address", getString chMap "description"⟩
      | _ => acc)
    []

/-- `AsyncAPIValidator`: compiled schemas by name, channel metadata, and
the compiler holding the registered resources. -/
structure AsyncAPIValidator where
  schemas : List (String × Val)
  channels : List (String × ChannelInfo)
  compiler : Compiler

/-- `loadSpec` of the AsyncAPI validator, given the parsed document:
parse channels, register all component schemas (pass 1), then compile
them all (pass 2). -/
def loadSpec (spec : List (String × Val)) : Except LoadErr AsyncAPIValidator :=
  let channels := parseChannels (specChannels spec)
  match registerPass asyncNS ⟨[]⟩ [] (specComponentSchemas spec) with
  | .error e => .error e
  | .ok (c, names) =>
    match compilePass asyncNS c [] names with
    | .error e => .error e
    | .ok schemas => .ok ⟨schemas, channels, c⟩

/-- `NewAsyncAPIValidator`: on any `loadSpec` error the constructor
returns `(nil, err)` — modelled by `.error`; otherwise the validator. -/
def NewAsyncAPIValidator (spec : List (String × Val)) :
    Except LoadErr AsyncAPIValidator :=
  loadSpec spec

/-! ## The validation facade -/

/-- Raw payload bytes together with the outcome `json.Unmarshal` has on
them: `none` when they are not valid JSON. -/
structure Payload where
  raw : String
  parsed : Option Val

/-- The result of one validation call, by error kind.  The compiled
validator itself (`schema.Validate`) is the library's; theorems
universally quantify over it as `sv : Val → Val → Option String`
(`none` = valid, `some msg` = constraint violation). -/
inductive VResult where
  | unknownSchema (name : String)
  | parseError (msg : String)
  | constraintViolation (msg : String)
  | pass

/-- The `err.Error()` string of a validation result, with the exact
message formats of `ValidateMessage`. -/
def vresultErrString : VResult → String
  | .unknownSchema n => "schema not found: " ++ n
  | .parseError m => "parsing message payload: " ++ m
  | .constraintViolation m => "schema validation failed: " ++ m
  | .pass => ""

/-- `ValidateMessage`, state-passing: each Go statement only reads the
receiver, so every branch returns the validator it was given. -/
def ValidateMessageSt (sv : Val → Val → Option String)
    (v : AsyncAPIValidator) (schemaName : String) (payload : Payload) :
    VResult × AsyncAPIValidator :=
  match lookup v.schemas schemaName with
  | none => (.unknownSchema schemaName, v)
  | some schema =>
    match payload.parsed with
    | none => (.parseError payload.raw, v)
    | some data =>
      match sv schema data with
      | some msg => (.constraintViolation msg, v)
      | none => (.pass, v)

/-- The returned error of `ValidateMessage`. -/
def ValidateMessage (sv : Val → Val → Option String)
    (v : AsyncAPIValidator) (schemaName : String) (payload : Payload) :
    VResult :=
  (ValidateMessageSt sv v schemaName payload).1

/-! ## The OpenAPI validator -/

/-- One directory entry of the `components/schemas` directory as the
REST loader sees it: its name, whether it is a directory, and the
combined outcome of `os.ReadFile` + `yaml.Unmarshal` on it (`.error` for
a read or parse failure). -/
structure SchemaFile where
  fname : String
  isDir : Bool
  content : Except String (List (String × Val))

/-- `strings.HasSuffix(s, suffix)`, over the character lists:
`len(s) >= len(suffix)` and the last `len(suffix)` characters equal it. -/
def strEndsWith (s suffix : String) : Bool :=
  suffix.data == s.data.drop (s.data.length - suffix.data.length)

/-- Whether `loadComponentSchemas` processes a directory entry: plain
`.yaml` files except the `_index.yaml` index file. -/
def fileActive (f : SchemaFile) : Bool :=
  !f.isDir && strEndsWith f.fname ".yaml" && f.fname != "_index.yaml"

/-- The file loop of `loadComponentSchemas` (pass 1): skip inactive
entries, fail on an unreadable or unparsable file, and register every
named definition of each file into the one shared compiler. -/
def loadFilePass :
    Compiler → List String → List SchemaFile →
    Except LoadErr (Compiler × List String)
  | c, names, [] => .ok (c, names)
  | c, names, f :: rest =>
    if fileActive f then
      match f.content with
      | .error m => .error (.fileErr f.fname m)
      | .ok entries =>
        match registerPass openNS c names entries with
        | .error e => .error e
        | .ok (c', names') => loadFilePass c' names' rest
    else
      loadFilePass c names rest

/-- `OpenAPIValidator`: compiled schemas by name and the shared
compiler. -/
structure OpenAPIValidator where
  schemas : List (String × Val)
  compiler : Compiler

/-- `loadComponentSchemas` given the directory listing: register all
named definitions from every component file (pass 1), then compile all
recorded names (pass 2). -/
def loadComponentSchemas (files : List SchemaFile) :
    Except LoadErr OpenAPIValidator :=
  match loadFilePass ⟨[]⟩ [] files with
  | .error e => .error e
  | .ok (c, names) =>
    match compilePass openNS c [] names with
    | .error e => .error e
    | .ok schemas => .ok ⟨schemas, c⟩

/-- `NewOpenAPIValidator`: `.error` models the `(nil, err)` return. -/
def NewOpenAPIValidator (files : List SchemaFile) :
    Except LoadErr OpenAPIValidator :=
  loadComponentSchemas files

/-- `ValidateResponse`, state-passing like `ValidateMessageSt`; the
parse-error message format is `"parsing response body: %w"`. -/
def ValidateResponseSt (sv : Val → Val → Option String)
    (v : OpenAPIValidator) (schemaName : String) (body : Payload) :
    VResult × OpenAPIValidator :=
  match lookup v.schemas schemaName with
  | none => (.unknownSchema schemaName, v)
  | some schema =>
    match body.parsed with
    | none => (.parseError body.raw, v)
    | some data =>
      match sv schema data with
      | some msg => (.constraintViolation msg, v)
      | none => (.pass, v)

/-- The returned error of `ValidateResponse`. -/
def ValidateResponse (sv : Val → Val → Option String)
    (v : OpenAPIValidator) (schemaName : String) (body : Payload) :
    VResult :=
  (ValidateResponseSt sv v schemaName body).1

/-! ## The contract-test suites -/

/-- `EventTestResult` of `asyncapi.go`. -/
structure EventTestResult where
  channel : String
  schema : String
  passed : Bool
  error : String
  payload : String

/-- `EventContractTestSuite`. -/
structure EventContractTestSuite where
  validator : AsyncAPIValidator
  results : List EventTestResult

/-- `ValidateEvent`: build the result, run `ValidateMessage`, set
`Passed` on success and `Error` on failure, append the result to the
suite and return it. -/
def ValidateEvent (sv : Val → Val → Option String)
    (s : EventContractTestSuite) (channel schema : String)
    (payload : Payload) : EventTestResult × EventContractTestSuite :=
  let result :=
    match ValidateMessage sv s.validator schema payload with
    | .pass =>
        { channel := channel, schema := schema, passed := true,
          error := "", payload := payload.raw }
    | e =>
        { channel := channel, schema := schema, passed := false,
          error := vresultErrString e, payload := payload.raw }
  (result, { s with results := s.results ++ [result] })

/-- `Summary` of the event suite: count passed and failed results. -/
def eventSummary (s : EventContractTestSuite) : Nat × Nat :=
  s.results.foldl
    (fun pf r => if r.passed then (pf.1 + 1, pf.2) else (pf.1, pf.2 + 1))
    (0, 0)

/-- `ContractTestResult` of the OpenAPI module. -/
structure ContractTestResult where
  endpoint : String
  method : String
  schema : String
  passed : Bool
  error : String
  requestBody : String
  response : String

/-- `ContractTestSuite`. -/
structure ContractTestSuite where
  validator : OpenAPIValidator
  results : List ContractTestResult

/-- `RunTest`.  The two external effects are passed in as their
outcomes: `reqErr` is the error of `http.NewRequestWithContext` when it
fails, and `doResult` is what `client.Do` produced — a transport error
or the response status code and body.  Every control path appends
exactly one result before returning it. -/
def RunTest (sv : Val → Val → Option String) (s : ContractTestSuite)
    (method path : String) (body : String) (reqErr : Option String)
    (doResult : Except String (Nat × Payload)) (expectedStatus : Nat)
    (responseSchema : String) : ContractTestResult × ContractTestSuite :=
  let r0 : ContractTestResult :=
    { endpoint := path, method := method, schema := responseSchema,
      passed := false, error := "", requestBody := body, response := "" }
  match reqErr with
  | some m =>
      let r := { r0 with error := "creating request: " ++ m }
      (r, { s with results := s.results ++ [r] })
  | none =>
    match doResult with
    | .error m =>
        let r := { r0 with error := "executing request: " ++ m }
        (r, { s with results := s.results ++ [r] })
    | .ok (status, respBody) =>
      let r1 := { r0 with response := respBody.raw }
      if status ≠ expectedStatus then
        let r := { r1 with error := ("expected status " ++
          toString expectedStatus ++ ", got " ++ toString status) }
        (r, { s with results := s.results ++ [r] })
      else if responseSchema ≠ "" ∧ respBody.raw.length > 0 then
        match ValidateResponse sv s.validator responseSchema respBody with
        | .pass =>
            let r := { r1 with passed := true }
            (r, { s with results := s.results ++ [r] })
        | e =>
            let r := { r1 with error :=
              "schema validation: " ++ vresultErrString e }
            (r, { s with results := s.results ++ [r] })
      else
        let r := { r1 with passed := true }
        (r, { s with results := s.results ++ [r] })

/-- `Summary` of the HTTP suite. -/
def contractSummary (s : ContractTestSuite) : Nat × Nat :=
  s.results.foldl
    (fun pf r => if r.passed then (pf.1 + 1, pf.2) else (pf.1, pf.2 + 1))
    (0, 0)

/-! ## Derived notions used to state and prove the claims -/

/-- Whether pass 1 panics on a named definition: it does exactly when
the definition is a mapping on which the translator panics. -/
def entryPanics (ns : String) (p : String × Val) : Bool :=
  match p.2 with
  | .vMap m => (toJSONSchema ns m).isNone
  | _ => false

/-- What pass 1 registers for a named definition: the translated node
when the definition is a mapping, the translator succeeds and
`json.Marshal` succeeds; `none` when the entry is skipped or panics. -/
def translateEntry (ns : String) (p : String × Val) : Option Val :=
  match p.2 with
  | .vMap m =>
    match toJSONSchema ns m with
    | some js => if marshalOk (.vMap js) then some (.vMap js) else none
    | none => none
  | _ => none

/-- Whether pass 1 registers a named definition. -/
def registerable (ns : String) (p : String × Val) : Bool :=
  (translateEntry ns p).isSome

/-- The compiler state pass 1 produces: each registerable entry's
translation stored under its resource identifier, in entry order. -/
def regCompiler (ns : String) (c : Compiler) : List (String × Val) → Compiler
  | [] => c
  | p :: rest =>
    match translateEntry ns p with
    | some t => regCompiler ns (addResource c (ns ++ p.1) t) rest
    | none => regCompiler ns c rest

/-- The translation of the last registerable entry declared under the
resource identifier `id` — i.e. the survivor of `AddResource`'s silent
overwrite when several entries share a name. -/
def lastTranslation (ns : String) (entries : List (String × Val))
    (id : String) : Option Val :=
  match entries with
  | [] => none
  | p :: rest =>
    match lastTranslation ns rest id with
    | some t => some t
    | none => if ns ++ p.1 = id then translateEntry ns p else none

/-- The named definitions the REST loader feeds to the registry, in file
order, from the directory entries it does not skip. -/
def allEntries : List SchemaFile → List (String × Val)
  | [] => []
  | f :: rest =>
    (if fileActive f then
      match f.content with
      | .ok es => es
      | .error _ => []
    else []) ++ allEntries rest

/-- The `ok` payload of an `Except`, if any. -/
def exceptOk {ε α : Type} : Except ε α → Option α
  | .ok a => some a
  | .error _ => none

/-- What one iteration of the `toJSONSchema` loop writes into the result
for key `k` holding value `v` (`none`: the key is dropped).  On a
non-string `$ref` the loop panics instead; under a successful run that
case does not arise. -/
def writeOf (ns : String) (k : String) (v : Val) : Option Val :=
  if k = "$ref" then
    match v with
    | .vStr s => some (.vStr (ns ++ lastSegment s))
    | _ => none
  else if k = "properties" then
    match v with
    | .vMap props => (convertProperties ns props).map .vMap
    | _ => none
  else if k = "items" then
    match v with
    | .vMap items => (toJSONSchema ns items).map .vMap
    | _ => none
  else if k = "allOf" then
    match v with
    | .vArr elems => (convertAllOf ns elems).map .vArr
    | _ => none
  else some v

/-- The binding the whole `toJSONSchema` loop leaves in the result for a
key: the write of the last occurrence that writes at all. -/
def processedBinding (ns : String) :
    List (String × Val) → String → Option Val
  | [], _ => none
  | (k, v) :: rest, key =>
    match processedBinding ns rest key with
    | some t => some t
    | none => if k = key then writeOf ns k v else none

mutual

/-- Every `$ref` value the translator will inspect in a node is a
string (the condition under which the unchecked `val.(string)` cannot
panic). -/
def wellRefEntries : List (String × Val) → Bool
  | [] => true
  | (k, v) :: rest =>
    (if k = "$ref" then
      match v with
      | .vStr _ => true
      | _ => false
    else if k = "properties" then
      match v with
      | .vMap props => wellRefProps props
      | _ => true
    else if k = "items" then
      match v with
      | .vMap items => wellRefEntries items
      | _ => true
    else if k = "allOf" then
      match v with
      | .vArr elems => wellRefAllOf elems
      | _ => true
    else true) && wellRefEntries rest

/-- `wellRefEntries` for the map-valued properties of a node. -/
def wellRefProps : List (String × Val) → Bool
  | [] => true
  | (_, v) :: rest =>
    (match v with
    | .vMap pm => wellRefEntries pm
    | _ => true) && wellRefProps rest

/-- `wellRefEntries` for the map elements of an `allOf` list. -/
def wellRefAllOf : List Val → Bool
  | [] => true
  | v :: rest =>
    (match v with
    | .vMap m => wellRefEntries m
    | _ => true) && wellRefAllOf rest

end

/-! ## Association-list lemmas -/

theorem lookup_setKey_self {α : Type} (l : List (String × α)) (k : String)
    (v : α) : lookup (setKey l k v) k = some v := by
  induction l with
  | nil => simp [setKey, lookup]
  | cons p rest ih =>
    obtain ⟨k0, v0⟩ := p
    by_cases h : k0 = k
    · simp [setKey, h, lookup]
    · simp [setKey, h, lookup, ih]

theorem lookup_setKey_ne {α : Type} (l : List (String × α)) (k key : String)
    (v : α) (h : key ≠ k) : lookup (setKey l k v) key = lookup l key := by
  induction l with
  | nil => simp [setKey, lookup, Ne.symm h]
  | cons p rest ih =>
    obtain ⟨k0, v0⟩ := p
    by_cases h0 : k0 = k
    · subst h0
      simp [setKey, lookup, Ne.symm h]
    · by_cases h1 : k0 = key
      · simp [setKey, h0, lookup, h1, h]
      · simp [setKey, h0, lookup, h1, ih]

theorem lookup_eq_none_iff {α : Type} (l : List (String × α)) (key : String) :
    lookup l key = none ↔ key ∉ l.map Prod.fst := by
  induction l with
  | nil => simp [lookup]
  | cons p rest ih =>
    obtain ⟨k0, v0⟩ := p
    by_cases h : k0 = key
    · simp [lookup, h]
    · simp [lookup, h, ih, Ne.symm h]

theorem lookup_mem {α : Type} {l : List (String × α)} {key : String} {v : α}
    (h : lookup l key = some v) : (key, v) ∈ l := by
  induction l with
  | nil => simp [lookup] at h
  | cons p rest ih =>
    obtain ⟨k0, v0⟩ := p
    by_cases h0 : k0 = key
    · subst h0
      simp [lookup] at h
      simp [h]
    · simp [lookup, h0] at h
      exact List.mem_cons_of_mem _ (ih h)

theorem nodup_keys_eq {α : Type} {l : List (String × α)}
    (h : (l.map Prod.fst).Nodup) {p q : String × α} (hp : p ∈ l) (hq : q ∈ l)
    (heq : p.1 = q.1) : p = q := by
  induction l with
  | nil => simp at hp
  | cons a rest ih =>
    simp only [List.map_cons, List.nodup_cons] at h
    rcases List.mem_cons.mp hp with hp1 | hp2 <;>
      rcases List.mem_cons.mp hq with hq1 | hq2
    · rw [hp1, hq1]
    · exfalso
      apply h.1
      rw [hp1] at heq
      rw [heq]
      exact List.mem_map_of_mem Prod.fst hq2
    · exfalso
      apply h.1
      rw [hq1] at heq
      rw [← heq]
      exact List.mem_map_of_mem Prod.fst hp2
    · exact ih h.2 hp2 hq2

theorem lookup_of_nodup_mem {α : Type} {l : List (String × α)}
    (h : (l.map Prod.fst).Nodup) {k : String} {v : α} (hm : (k, v) ∈ l) :
    lookup l k = some v := by
  induction l with
  | nil => simp at hm
  | cons p rest ih =>
    obtain ⟨k0, v0⟩ := p
    simp only [List.map_cons, List.nodup_cons] at h
    rcases List.mem_cons.mp hm with h1 | h2
    · rw [← h1]
      simp [lookup]
    · have hk : k0 ≠ k := by
        intro hkk
        apply h.1
        rw [hkk]
        exact List.mem_map_of_mem Prod.fst h2
      simp [lookup, hk]
      exact ih h.2 h2

/-! ## Pass-1 characterization -/

theorem registerPass_ok (ns : String) :
    ∀ (entries : List (String × Val)) (c : Compiler) (names : List String),
    (∀ p ∈ entries, entryPanics ns p = false) →
    registerPass ns c names entries =
      .ok (regCompiler ns c entries,
        names ++ (entries.filter (registerable ns)).map Prod.fst) := by
  intro entries
  induction entries with
  | nil => intro c names _; simp [registerPass, regCompiler]
  | cons p rest ih =>
    intro c names hnp
    obtain ⟨name, schemaDef⟩ := p
    have hnpr : ∀ q ∈ rest, entryPanics ns q = false := fun q hq =>
      hnp q (List.mem_cons_of_mem _ hq)
    cases schemaDef with
    | vMap schemaMap =>
      cases hts : toJSONSchema ns schemaMap with
      | none =>
        exfalso
        have := hnp _ (List.mem_cons_self _ _)
        simp [entryPanics, hts] at this
      | some js =>
        by_cases hm : marshalOk (.vMap js) = true
        · simp only [registerPass, hts, hm, if_true]
          rw [ih _ _ hnpr]
          simp [regCompiler, translateEntry, registerable, hts, hm]
        · simp only [registerPass, hts]
          rw [if_neg hm]
          rw [ih _ _ hnpr]
          have hm' : marshalOk (.vMap js) = false := by simpa using hm
          simp [regCompiler, translateEntry, registerable, hts, hm']
    | vStr s =>
      simp only [registerPass]
      rw [ih _ _ hnpr]
      simp [regCompiler, translateEntry, registerable]
    | vInt n =>
      simp only [registerPass]
      rw [ih _ _ hnpr]
      simp [regCompiler, translateEntry, registerable]
    | vBool b =>
      simp only [registerPass]
      rw [ih _ _ hnpr]
      simp [regCompiler, translateEntry, registerable]
    | vNull =>
      simp only [registerPass]
      rw [ih _ _ hnpr]
      simp [regCompiler, translateEntry, registerable]
    | vNaN =>
      simp only [registerPass]
      rw [ih _ _ hnpr]
      simp [regCompiler, translateEntry, registerable]
    | vArr l =>
      simp only [registerPass]
      rw [ih _ _ hnpr]
      simp [regCompiler, translateEntry, registerable]

theorem lookup_regCompiler (ns : String) :
    ∀ (entries : List (String × Val)) (c : Compiler) (id : String),
    lookup (regCompiler ns c entries).resources id =
      match lastTranslation ns entries id with
      | some t => some t
      | none => lookup c.resources id := by
  intro entries
  induction entries with
  | nil => intro c id; simp [regCompiler, lastTranslation]
  | cons p rest ih =>
    intro c id
    cases hte : translateEntry ns p with
    | some t =>
      simp only [regCompiler, hte]
      rw [ih]
      cases hlt : lastTranslation ns rest id with
      | some t' => simp [lastTranslation, hlt]
      | none =>
        simp only [lastTranslation, hlt]
        by_cases hid : ns ++ p.1 = id
        · simp [hid, hte, addResource, lookup_setKey_self]
        · have : id ≠ ns ++ p.1 := fun h => hid h.symm
          simp [hid, addResource, lookup_setKey_ne _ _ _ _ this]
    | none =>
      simp only [regCompiler, hte]
      rw [ih]
      cases hlt : lastTranslation ns rest id with
      | some t' => simp [lastTranslation, hlt]
      | none =>
        simp only [lastTranslation, hlt]
        by_cases hid : ns ++ p.1 = id
        · simp [hid, hte]
        · simp [hid]

theorem lastTranslation_mem (ns : String) :
    ∀ (entries : List (String × Val)) (id : String) (t : Val),
    lastTranslation ns entries id = some t →
    ∃ p ∈ entries, translateEntry ns p = some t ∧ id = ns ++ p.1 := by
  intro entries
  induction entries with
  | nil => intro id t h; simp [lastTranslation] at h
  | cons p rest ih =>
    intro id t h
    simp only [lastTranslation] at h
    cases hlt : lastTranslation ns rest id with
    | some t' =>
      rw [hlt] at h
      obtain ⟨q, hq, hqt, hqid⟩ := ih id t' hlt
      simp at h
      exact ⟨q, List.mem_cons_of_mem _ hq, by rw [← h]; exact hqt, hqid⟩
    | none =>
      rw [hlt] at h
      by_cases hid : ns ++ p.1 = id
      · rw [if_pos hid] at h
        exact ⟨p, List.mem_cons_self _ _, h, hid.symm⟩
      · rw [if_neg hid] at h
        exact absurd h (by simp)

theorem lastTranslation_isSome_of_mem (ns : String) :
    ∀ (entries : List (String × Val)) (q : String × Val),
    q ∈ entries → registerable ns q = true →
    (lastTranslation ns entries (ns ++ q.1)).isSome := by
  intro entries
  induction entries with
  | nil => intro q hq; simp at hq
  | cons p rest ih =>
    intro q hq hreg
    rcases List.mem_cons.mp hq with h1 | h2
    · simp only [lastTranslation]
      cases hlt : lastTranslation ns rest (ns ++ q.1) with
      | some t => simp
      | none =>
        rw [← h1, if_pos rfl]
        rw [h1] at hreg ⊢
        simpa [registerable] using hreg
    · simp only [lastTranslation]
      cases hlt : lastTranslation ns rest (ns ++ q.1) with
      | some t => simp
      | none =>
        exfalso
        have := ih q h2 hreg
        rw [hlt] at this
        simp at this

theorem registerPass_append (ns : String) :
    ∀ (es1 : List (String × Val)) (c : Compiler) (names : List String)
    (es2 : List (String × Val)),
    registerPass ns c names (es1 ++ es2) =
      match registerPass ns c names es1 with
      | .error e => .error e
      | .ok (c', names') => registerPass ns c' names' es2 := by
  intro es1
  induction es1 with
  | nil => intro c names es2; simp [registerPass]
  | cons p rest ih =>
    intro c names es2
    obtain ⟨name, schemaDef⟩ := p
    cases schemaDef with
    | vMap schemaMap =>
      cases hts : toJSONSchema ns schemaMap with
      | none => simp [registerPass, hts]
      | some js =>
        by_cases hm : marshalOk (.vMap js) = true
        · simp only [List.cons_append, registerPass, hts, hm, if_true]
          exact ih _ _ _
        · simp only [List.cons_append, registerPass, hts]
          rw [if_neg hm, if_neg hm]
          exact ih _ _ _
    | vStr s => simpa [registerPass] using ih c names es2
    | vInt n => simpa [registerPass] using ih c names es2
    | vBool b => simpa [registerPass] using ih c names es2
    | vNull => simpa [registerPass] using ih c names es2
    | vNaN => simpa [registerPass] using ih c names es2
    | vArr l => simpa [registerPass] using ih c names es2

theorem loadFilePass_eq (files : List SchemaFile)
    (h : ∀ f ∈ files, fileActive f = true → ∃ es, f.content = .ok es) :
    ∀ (c : Compiler) (names : List String),
    loadFilePass c names files = registerPass openNS c names (allEntries files) := by
  induction files with
  | nil => intro c names; simp [loadFilePass, allEntries, registerPass]
  | cons f rest ih =>
    intro c names
    have hrest : ∀ g ∈ rest, fileActive g = true → ∃ es, g.content = .ok es :=
      fun g hg => h g (List.mem_cons_of_mem _ hg)
    by_cases hf : fileActive f = true
    · obtain ⟨es, hes⟩ := h f (List.mem_cons_self _ _) hf
      simp only [loadFilePass, hf, if_true, hes, allEntries]
      rw [registerPass_append]
      cases hreg : registerPass openNS c names es with
      | error e => simp
      | ok p =>
        obtain ⟨c', names'⟩ := p
        simp [ih hrest]
    · simp only [loadFilePass, allEntries, hf]
      simp only [Bool.false_eq_true, if_false, List.nil_append]
      exact ih hrest c names

/-! ## Compile-step lemmas -/

theorem compile_ok {c : Compiler} {id : String} {doc : Val}
    (h1 : lookup c.resources id = some doc)
    (h2 : ∀ r ∈ refsOf doc, (lookup c.resources r).isSome) :
    compile c id = .ok doc := by
  simp only [compile, h1]
  have : (refsOf doc).find? (fun r => (lookup c.resources r).isNone) = none := by
    rw [List.find?_eq_none]
    intro r hr
    have := h2 r hr
    simp only [Option.isNone]
    cases hl : lookup c.resources r with
    | none => rw [hl] at this; simp at this
    | some d => simp
  rw [this]

theorem compile_fails {c : Compiler} {id : String} {doc : Val} {r : String}
    (h1 : lookup c.resources id = some doc) (hr : r ∈ refsOf doc)
    (hmiss : lookup c.resources r = none) :
    ∃ m, compile c id = .error m := by
  simp only [compile, h1]
  cases hf : (refsOf doc).find? (fun r => (lookup c.resources r).isNone) with
  | some r' => exact ⟨_, rfl⟩
  | none =>
    exfalso
    rw [List.find?_eq_none] at hf
    exact hf r hr (by simp [hmiss])

/-! ## Pass-2 characterization -/

theorem compilePass_ok (ns : String) (c : Compiler) :
    ∀ (names : List String),
    (∀ n ∈ names, ∃ doc, compile c (ns ++ n) = .ok doc) →
    ∀ (acc : List (String × Val)),
    ∃ schemas, compilePass ns c acc names = .ok schemas ∧
      ∀ k, lookup schemas k =
        if k ∈ names then exceptOk (compile c (ns ++ k)) else lookup acc k := by
  intro names
  induction names with
  | nil =>
    intro _ acc
    refine ⟨acc, by simp [compilePass], fun k => by simp⟩
  | cons n rest ih =>
    intro h acc
    obtain ⟨doc, hdoc⟩ := h n (List.mem_cons_self _ _)
    have hrest : ∀ m ∈ rest, ∃ doc, compile c (ns ++ m) = .ok doc :=
      fun m hm => h m (List.mem_cons_of_mem _ hm)
    obtain ⟨schemas, hs, hchar⟩ := ih hrest (setKey acc n doc)
    refine ⟨schemas, ?_, ?_⟩
    · simp only [compilePass, hdoc]
      exact hs
    · intro k
      rw [hchar k]
      by_cases hk : k ∈ rest
      · simp [hk]
      · by_cases hkn : k = n
        · subst hkn
          simp [hk, hdoc, exceptOk, lookup_setKey_self]
        · rw [lookup_setKey_ne _ _ _ _ hkn]
          simp [hk, hkn]

theorem compilePass_fails (ns : String) (c : Compiler) :
    ∀ (names : List String) (n : String), n ∈ names →
    (∀ doc, compile c (ns ++ n) ≠ .ok doc) →
    ∀ (acc : List (String × Val)),
    ∃ n' m', compilePass ns c acc names = .error (.compileErr n' m') := by
  intro names
  induction names with
  | nil => intro n hn; simp at hn
  | cons k rest ih =>
    intro n hn herr acc
    cases hc : compile c (ns ++ k) with
    | error m => exact ⟨k, m, by simp [compilePass, hc]⟩
    | ok doc =>
      have hne : n ≠ k := by
        intro hkn
        subst hkn
        exact herr doc hc
      have hn' : n ∈ rest := by
        rcases List.mem_cons.mp hn with h1 | h2
        · exact absurd h1 hne
        · exact h2
      obtain ⟨n', m', hres⟩ := ih n hn' herr (setKey acc k doc)
      exact ⟨n', m', by simp [compilePass, hc, hres]⟩

theorem compilePass_keys (ns : String) (c : Compiler) :
    ∀ (names : List String) (acc schemas : List (String × Val)),
    compilePass ns c acc names = .ok schemas →
    ∀ k, (lookup schemas k).isSome → (lookup acc k).isSome ∨ k ∈ names := by
  intro names
  induction names with
  | nil =>
    intro acc schemas h k hk
    simp only [compilePass] at h
    cases h
    exact Or.inl hk
  | cons n rest ih =>
    intro acc schemas h k hk
    simp only [compilePass] at h
    cases hc : compile c (ns ++ n) with
    | error m => rw [hc] at h; cases h
    | ok doc =>
      rw [hc] at h
      rcases ih _ _ h k hk with h1 | h2
      · by_cases hkn : k = n
        · exact Or.inr (by simp [hkn])
        · rw [lookup_setKey_ne _ _ _ _ hkn] at h1
          exact Or.inl h1
      · exact Or.inr (List.mem_cons_of_mem _ h2)

/-! ## The two-pass master lemma -/

theorem lookup_regCompiler_empty (ns : String) (entries : List (String × Val))
    (id : String) :
    lookup (regCompiler ns ⟨[]⟩ entries).resources id =
      lastTranslation ns entries id := by
  rw [lookup_regCompiler]
  cases lastTranslation ns entries id with
  | some t => simp
  | none => simp [lookup]

theorem twoPass_ok (ns : String) (entries : List (String × Val))
    (hnp : ∀ p ∈ entries, entryPanics ns p = false)
    (hrefs : ∀ p ∈ entries, ∀ t, translateEntry ns p = some t →
      ∀ r ∈ refsOf t, ∃ q ∈ entries, registerable ns q = true ∧ r = ns ++ q.1) :
    ∃ schemas,
      registerPass ns ⟨[]⟩ [] entries =
        .ok (regCompiler ns ⟨[]⟩ entries,
          (entries.filter (registerable ns)).map Prod.fst) ∧
      compilePass ns (regCompiler ns ⟨[]⟩ entries) []
        ((entries.filter (registerable ns)).map Prod.fst) = .ok schemas ∧
      ∀ k, lookup schemas k =
        if k ∈ (entries.filter (registerable ns)).map Prod.fst
        then lastTranslation ns entries (ns ++ k) else none := by
  have hreg := registerPass_ok ns entries ⟨[]⟩ [] hnp
  simp only [List.nil_append] at hreg
  have hres : ∀ id, lookup (regCompiler ns ⟨[]⟩ entries).resources id =
      lastTranslation ns entries id := lookup_regCompiler_empty ns entries
  have hcompile : ∀ n ∈ (entries.filter (registerable ns)).map Prod.fst,
      ∃ doc, compile (regCompiler ns ⟨[]⟩ entries) (ns ++ n) = .ok doc ∧
        lastTranslation ns entries (ns ++ n) = some doc := by
    intro n hn
    obtain ⟨q, hq, hqn⟩ := List.mem_map.mp hn
    have hqmem : q ∈ entries := List.mem_of_mem_filter hq
    have hqreg : registerable ns q = true := List.of_mem_filter hq
    have hsome := lastTranslation_isSome_of_mem ns entries q hqmem hqreg
    rw [hqn] at hsome
    obtain ⟨doc, hdoc⟩ := Option.isSome_iff_exists.mp hsome
    refine ⟨doc, ?_, hdoc⟩
    apply compile_ok
    · rw [hres]; exact hdoc
    · intro r hr
      obtain ⟨p, hp, hpt, hpid⟩ := lastTranslation_mem ns entries _ _ hdoc
      obtain ⟨q', hq', hq'reg, hq'id⟩ := hrefs p hp doc hpt r hr
      rw [hres, hq'id]
      exact lastTranslation_isSome_of_mem ns entries q' hq' hq'reg
  obtain ⟨schemas, hs, hchar⟩ :=
    compilePass_ok ns (regCompiler ns ⟨[]⟩ entries)
      ((entries.filter (registerable ns)).map Prod.fst)
      (fun n hn => (hcompile n hn).imp (fun _ h => h.1)) []
  refine ⟨schemas, hreg, hs, ?_⟩
  intro k
  rw [hchar k]
  by_cases hk : k ∈ (entries.filter (registerable ns)).map Prod.fst
  · obtain ⟨doc, hdoc, hlt⟩ := hcompile k hk
    simp [hk, hdoc, exceptOk, hlt]
  · simp [hk, lookup]

theorem string_append_left_cancel {s a b : String} (h : s ++ a = s ++ b) :
    a = b := by
  have hd : (s ++ a).data = (s ++ b).data := by rw [h]
  simp only [String.data_append] at hd
  have h2 := List.append_cancel_left hd
  cases a; cases b
  exact congrArg String.mk h2

theorem lastTranslation_nodup (ns : String) :
    ∀ (entries : List (String × Val)),
    (entries.map Prod.fst).Nodup →
    ∀ p ∈ entries, lastTranslation ns entries (ns ++ p.1) = translateEntry ns p := by
  intro entries
  induction entries with
  | nil => intro _ p hp; simp at hp
  | cons q rest ih =>
    intro hnodup p hp
    simp only [List.map_cons, List.nodup_cons] at hnodup
    rcases List.mem_cons.mp hp with h1 | h2
    · subst h1
      simp only [lastTranslation]
      cases hlt : lastTranslation ns rest (ns ++ p.1) with
      | some t =>
        exfalso
        obtain ⟨p', hp', _, hid⟩ := lastTranslation_mem ns rest _ _ hlt
        have : p.1 = p'.1 := string_append_left_cancel hid
        apply hnodup.1
        rw [this]
        exact List.mem_map_of_mem Prod.fst hp'
      | none => simp
    · simp only [lastTranslation]
      cases hlt : lastTranslation ns rest (ns ++ p.1) with
      | some t => rw [← ih hnodup.2 p h2, hlt]
      | none =>
        rw [← ih hnodup.2 p h2, hlt]
        have hne : ns ++ q.1 ≠ ns ++ p.1 := by
          intro heq
          have : q.1 = p.1 := string_append_left_cancel heq
          apply hnodup.1
          rw [this]
          exact List.mem_map_of_mem Prod.fst h2
        simp [hne]

/-! ## Loader-level wrappers -/

theorem loadSpec_ok (spec : List (String × Val))
    (hnp : ∀ p ∈ specComponentSchemas spec, entryPanics asyncNS p = false)
    (hrefs : ∀ p ∈ specComponentSchemas spec, ∀ t,
      translateEntry asyncNS p = some t → ∀ r ∈ refsOf t,
      ∃ q ∈ specComponentSchemas spec, registerable asyncNS q = true ∧
        r = asyncNS ++ q.1) :
    ∃ v, loadSpec spec = .ok v ∧
      ∀ k, lookup v.schemas k =
        if k ∈ ((specComponentSchemas spec).filter
            (registerable asyncNS)).map Prod.fst
        then lastTranslation asyncNS (specComponentSchemas spec) (asyncNS ++ k)
        else none := by
  obtain ⟨schemas, hreg, hcomp, hchar⟩ :=
    twoPass_ok asyncNS (specComponentSchemas spec) hnp hrefs
  refine ⟨⟨schemas, parseChannels (specChannels spec),
    regCompiler asyncNS ⟨[]⟩ (specComponentSchemas spec)⟩, ?_, hchar⟩
  simp only [loadSpec, hreg, hcomp]

theorem loadSpec_fails (spec : List (String × Val))
    (hnp : ∀ p ∈ specComponentSchemas spec, entryPanics asyncNS p = false)
    (hnodup : ((specComponentSchemas spec).map Prod.fst).Nodup)
    (p : String × Val) (hp : p ∈ specComponentSchemas spec)
    (t : Val) (ht : translateEntry asyncNS p = some t)
    (r : String) (hr : r ∈ refsOf t)
    (hmiss : ∀ q ∈ specComponentSchemas spec,
      registerable asyncNS q = true → asyncNS ++ q.1 ≠ r) :
    ∃ n m, loadSpec spec = .error (.compileErr n m) := by
  have hreg := registerPass_ok asyncNS (specComponentSchemas spec) ⟨[]⟩ [] hnp
  simp only [List.nil_append] at hreg
  have hres : ∀ id,
      lookup (regCompiler asyncNS ⟨[]⟩ (specComponentSchemas spec)).resources id =
      lastTranslation asyncNS (specComponentSchemas spec) id :=
    lookup_regCompiler_empty asyncNS (specComponentSchemas spec)
  have hpreg : registerable asyncNS p = true := by simp [registerable, ht]
  have hlook : lookup (regCompiler asyncNS ⟨[]⟩ (specComponentSchemas spec)).resources
      (asyncNS ++ p.1) = some t := by
    rw [hres, lastTranslation_nodup asyncNS (specComponentSchemas spec) hnodup p hp, ht]
  have hmissing : lookup (regCompiler asyncNS ⟨[]⟩ (specComponentSchemas spec)).resources
      r = none := by
    rw [hres]
    cases hlt : lastTranslation asyncNS (specComponentSchemas spec) r with
    | none => rfl
    | some t' =>
      exfalso
      obtain ⟨q, hq, hqt, hqid⟩ := lastTranslation_mem asyncNS _ _ _ hlt
      exact hmiss q hq (by simp [registerable, hqt]) hqid.symm
  obtain ⟨m, hm⟩ := compile_fails hlook hr hmissing
  have hmem : p.1 ∈ ((specComponentSchemas spec).filter
      (registerable asyncNS)).map Prod.fst :=
    List.mem_map_of_mem Prod.fst (List.mem_filter.mpr ⟨hp, hpreg⟩)
  obtain ⟨n', m', hfail⟩ :=
    compilePass_fails asyncNS (regCompiler asyncNS ⟨[]⟩ (specComponentSchemas spec))
      _ p.1 hmem (fun doc hdoc => by rw [hm] at hdoc; cases hdoc) []
  exact ⟨n', m', by simp only [loadSpec, hreg, hfail]⟩

theorem loadComponentSchemas_ok (files : List SchemaFile)
    (hfiles : ∀ f ∈ files, fileActive f = true → ∃ es, f.content = .ok es)
    (hnp : ∀ p ∈ allEntries files, entryPanics openNS p = false)
    (hrefs : ∀ p ∈ allEntries files, ∀ t,
      translateEntry openNS p = some t → ∀ r ∈ refsOf t,
      ∃ q ∈ allEntries files, registerable openNS q = true ∧ r = openNS ++ q.1) :
    ∃ v, loadComponentSchemas files = .ok v ∧
      ∀ k, lookup v.schemas k =
        if k ∈ ((allEntries files).filter (registerable openNS)).map Prod.fst
        then lastTranslation openNS (allEntries files) (openNS ++ k)
        else none := by
  obtain ⟨schemas, hreg, hcomp, hchar⟩ :=
    twoPass_ok openNS (allEntries files) hnp hrefs
  refine ⟨⟨schemas, regCompiler openNS ⟨[]⟩ (allEntries files)⟩, ?_, hchar⟩
  simp only [loadComponentSchemas, loadFilePass_eq files hfiles, hreg, hcomp]

/-! ## Translator characterization -/

theorem lookup_setKey_rule {α : Type} (acc : List (String × α)) (k key : String)
    (x : α) :
    lookup (setKey acc k x) key = if k = key then some x else lookup acc key := by
  by_cases h : k = key
  · subst h
    simp [lookup_setKey_self]
  · rw [if_neg h]
    exact lookup_setKey_ne _ _ _ _ (Ne.symm h)

theorem processedBinding_not_mem (ns : String) :
    ∀ (m : List (String × Val)) (key : String), key ∉ m.map Prod.fst →
    processedBinding ns m key = none := by
  intro m
  induction m with
  | nil => intro key _; rfl
  | cons p rest ih =>
    intro key hkey
    obtain ⟨k0, v0⟩ := p
    simp only [List.map_cons, List.mem_cons] at hkey
    push_neg at hkey
    simp only [processedBinding, ih key hkey.2]
    rw [if_neg (fun h => hkey.1 h.symm)]

theorem processedBinding_nodup (ns : String) :
    ∀ (m : List (String × Val)), (m.map Prod.fst).Nodup →
    ∀ key v, lookup m key = some v →
    processedBinding ns m key = writeOf ns key v := by
  intro m
  induction m with
  | nil => intro _ key v h; simp [lookup] at h
  | cons p rest ih =>
    intro hnodup key v h
    obtain ⟨k0, v0⟩ := p
    simp only [List.map_cons, List.nodup_cons] at hnodup
    by_cases hk : k0 = key
    · subst hk
      simp only [lookup, if_pos rfl] at h
      cases h
      have hnot : k0 ∉ rest.map Prod.fst := hnodup.1
      simp only [processedBinding, processedBinding_not_mem ns rest k0 hnot,
        if_pos rfl]
      simp
    · simp only [lookup, if_neg hk] at h
      have := ih hnodup.2 key v h
      simp only [processedBinding, this]
      cases hw : writeOf ns key v with
      | some t => simp
      | none => simp [hk]

theorem translateLoop_lookup (ns : String) :
    ∀ (m acc r : List (String × Val)),
    translateLoop ns acc m = some r →
    ∀ key, lookup r key =
      match processedBinding ns m key with
      | some t => some t
      | none => lookup acc key := by
  intro m
  induction m with
  | nil =>
    intro acc r h key
    simp only [translateLoop] at h
    cases h
    simp [processedBinding]
  | cons p rest ih =>
    intro acc r h key
    obtain ⟨k, v⟩ := p
    by_cases h1 : k = "$ref"
    · subst h1
      cases v with
      | vStr s =>
        simp only [translateLoop, if_pos] at h
        rw [ih _ _ h key]
        simp only [processedBinding]
        cases hpb : processedBinding ns rest key with
        | some t => simp
        | none =>
          rw [lookup_setKey_rule]
          by_cases hk : "$ref" = key
          · subst hk
            simp [writeOf]
          · simp [hk]
      | vInt n => simp [translateLoop] at h
      | vBool b => simp [translateLoop] at h
      | vNull => simp [translateLoop] at h
      | vNaN => simp [translateLoop] at h
      | vMap mm => simp [translateLoop] at h
      | vArr l => simp [translateLoop] at h
    · by_cases h2 : k = "properties"
      · subst h2
        cases v with
        | vMap props =>
          simp only [translateLoop, reduceIte] at h
          cases hcp : convertProperties ns props with
          | none => rw [hcp] at h; cases h
          | some props' =>
            rw [hcp] at h
            rw [ih _ _ h key]
            simp only [processedBinding]
            cases hpb : processedBinding ns rest key with
            | some t => simp
            | none =>
              rw [lookup_setKey_rule]
              by_cases hk : "properties" = key
              · subst hk
                simp [writeOf, hcp]
              · simp [hk]
        | vStr s =>
          simp only [translateLoop, reduceIte] at h
          rw [ih _ _ h key]
          simp only [processedBinding]
          cases hpb : processedBinding ns rest key with
          | some t => simp
          | none =>
            by_cases hk : "properties" = key
            · subst hk; simp [writeOf]
            · simp [hk]
        | vInt n =>
          simp only [translateLoop, reduceIte] at h
          rw [ih _ _ h key]
          simp only [processedBinding]
          cases hpb : processedBinding ns rest key with
          | some t => simp
          | none =>
            by_cases hk : "properties" = key
            · subst hk; simp [writeOf]
            · simp [hk]
        | vBool b =>
          simp only [translateLoop, reduceIte] at h
          rw [ih _ _ h key]
          simp only [processedBinding]
          cases hpb : processedBinding ns rest key with
          | some t => simp
          | none =>
            by_cases hk : "properties" = key
            · subst hk; simp [writeOf]
            · simp [hk]
        | vNull =>
          simp only [translateLoop, reduceIte] at h
          rw [ih _ _ h key]
          simp only [processedBinding]
          cases hpb : processedBinding ns rest key with
          | some t => simp
          | none =>
            by_cases hk : "properties" = key
            · subst hk; simp [writeOf]
            · simp [hk]
        | vNaN =>
          simp only [translateLoop, reduceIte] at h
          rw [ih _ _ h key]
          simp only [processedBinding]
          cases hpb : processedBinding ns rest key with
          | some t => simp
          | none =>
            by_cases hk : "properties" = key
            · subst hk; simp [writeOf]
            · simp [hk]
        | vArr l =>
          simp only [translateLoop, reduceIte] at h
          rw [ih _ _ h key]
          simp only [processedBinding]
          cases hpb : processedBinding ns rest key with
          | some t => simp
          | none =>
            by_cases hk : "properties" = key
            · subst hk; simp [writeOf]
            · simp [hk]
      · by_cases h3 : k = "items"
        · subst h3
          cases v with
          | vMap items =>
            simp only [translateLoop, reduceIte] at h
            cases hti : toJSONSchema ns items with
            | none => rw [hti] at h; cases h
            | some items' =>
              rw [hti] at h
              rw [ih _ _ h key]
              simp only [processedBinding]
              cases hpb : processedBinding ns rest key with
              | some t => simp
              | none =>
                rw [lookup_setKey_rule]
                by_cases hk : "items" = key
                · subst hk
                  simp [writeOf, hti]
                · simp [hk]
          | vStr s =>
            simp only [translateLoop, reduceIte] at h
            rw [ih _ _ h key]
            simp only [processedBinding]
            cases hpb : processedBinding ns rest key with
            | some t => simp
            | none =>
              by_cases hk : "items" = key
              · subst hk; simp [writeOf]
              · simp [hk]
          | vInt n =>
            simp only [translateLoop, reduceIte] at h
            rw [ih _ _ h key]
            simp only [processedBinding]
            cases hpb : processedBinding ns rest key with
            | some t => simp
            | none =>
              by_cases hk : "items" = key
              · subst hk; simp [writeOf]
              · simp [hk]
          | vBool b =>
            simp only [translateLoop, reduceIte] at h
            rw [ih _ _ h key]
            simp only [processedBinding]
            cases hpb : processedBinding ns rest key with
            | some t => simp
            | none =>
              by_cases hk : "items" = key
              · subst hk; simp [writeOf]
              · simp [hk]
          | vNull =>
            simp only [translateLoop, reduceIte] at h
            rw [ih _ _ h key]
            simp only [processedBinding]
            cases hpb : processedBinding ns rest key with
            | some t => simp
            | none =>
              by_cases hk : "items" = key
              · subst hk; simp [writeOf]
              · simp [hk]
          | vNaN =>
            simp only [translateLoop, reduceIte] at h
            rw [ih _ _ h key]
            simp only [processedBinding]
            cases hpb : processedBinding ns rest key with
            | some t => simp
            | none =>
              by_cases hk : "items" = key
              · subst hk; simp [writeOf]
              · simp [hk]
          | vArr l =>
            simp only [translateLoop, reduceIte] at h
            rw [ih _ _ h key]
            simp only [processedBinding]
            cases hpb : processedBinding ns rest key with
            | some t => simp
            | none =>
              by_cases hk : "items" = key
              · subst hk; simp [writeOf]
              · simp [hk]
        · by_cases h4 : k = "allOf"
          · subst h4
            cases v with
            | vArr elems =>
              simp only [translateLoop, reduceIte] at h
              cases hca : convertAllOf ns elems with
              | none => rw [hca] at h; cases h
              | some elems' =>
                rw [hca] at h
                rw [ih _ _ h key]
                simp only [processedBinding]
                cases hpb : processedBinding ns rest key with
                | some t => simp
                | none =>
                  rw [lookup_setKey_rule]
                  by_cases hk : "allOf" = key
                  · subst hk
                    simp [writeOf, hca]
                  · simp [hk]
            | vStr s =>
              simp only [translateLoop, reduceIte] at h
              rw [ih _ _ h key]
              simp only [processedBinding]
              cases hpb : processedBinding ns rest key with
              | some t => simp
              | none =>
                by_cases hk : "allOf" = key
                · subst hk; simp [writeOf]
                · simp [hk]
            | vInt n =>
              simp only [translateLoop, reduceIte] at h
              rw [ih _ _ h key]
              simp only [processedBinding]
              cases hpb : processedBinding ns rest key with
              | some t => simp
              | none =>
                by_cases hk : "allOf" = key
                · subst hk; simp [writeOf]
                · simp [hk]
            | vBool b =>
              simp only [translateLoop, reduceIte] at h
              rw [ih _ _ h key]
              simp only [processedBinding]
              cases hpb : processedBinding ns rest key with
              | some t => simp
              | none =>
                by_cases hk : "allOf" = key
                · subst hk; simp [writeOf]
                · simp [hk]
            | vNull =>
              simp only [translateLoop, reduceIte] at h
              rw [ih _ _ h key]
              simp only [processedBinding]
              cases hpb : processedBinding ns rest key with
              | some t => simp
              | none =>
                by_cases hk : "allOf" = key
                · subst hk; simp [writeOf]
                · simp [hk]
            | vNaN =>
              simp only [translateLoop, reduceIte] at h
              rw [ih _ _ h key]
              simp only [processedBinding]
              cases hpb : processedBinding ns rest key with
              | some t => simp
              | none =>
                by_cases hk : "allOf" = key
                · subst hk; simp [writeOf]
                · simp [hk]
            | vMap mm =>
              simp only [translateLoop, reduceIte] at h
              rw [ih _ _ h key]
              simp only [processedBinding]
              cases hpb : processedBinding ns rest key with
              | some t => simp
              | none =>
                by_cases hk : "allOf" = key
                · subst hk; simp [writeOf]
                · simp [hk]
          · rw [translateLoop.eq_def] at h
            simp only [if_neg h1, if_neg h2, if_neg h3, if_neg h4] at h
            rw [ih _ _ h key]
            simp only [processedBinding]
            cases hpb : processedBinding ns rest key with
            | some t => simp
            | none =>
              rw [lookup_setKey_rule]
              by_cases hk : k = key
              · subst hk
                simp [writeOf, h1, h2, h3, h4]
              · simp [hk]

theorem translateLoop_shape (ns : String) :
    ∀ (m acc r : List (String × Val)),
    translateLoop ns acc m = some r →
    ∀ k v, (k, v) ∈ m →
      (k = "$ref" → ∃ s, v = .vStr s) ∧
      (∀ props, k = "properties" → v = .vMap props →
        (convertProperties ns props).isSome) ∧
      (∀ items, k = "items" → v = .vMap items →
        (toJSONSchema ns items).isSome) ∧
      (∀ elems, k = "allOf" → v = .vArr elems →
        (convertAllOf ns elems).isSome) := by
  intro m
  induction m with
  | nil => intro acc r _ k v hmem; simp at hmem
  | cons p rest ih =>
    intro acc r h k v hmem
    obtain ⟨k0, v0⟩ := p
    by_cases h1 : k0 = "$ref"
    · subst h1
      cases v0 with
      | vStr s =>
        simp only [translateLoop, if_pos] at h
        rcases List.mem_cons.mp hmem with he | hm
        · rw [Prod.mk.injEq] at he
          obtain ⟨rfl, rfl⟩ := he
          exact ⟨fun _ => ⟨s, rfl⟩, fun _ hk _ => absurd hk (by decide),
            fun _ hk _ => absurd hk (by decide),
            fun _ hk _ => absurd hk (by decide)⟩
        · exact ih _ _ h k v hm
      | vInt n => simp [translateLoop] at h
      | vBool b => simp [translateLoop] at h
      | vNull => simp [translateLoop] at h
      | vNaN => simp [translateLoop] at h
      | vMap mm => simp [translateLoop] at h
      | vArr l => simp [translateLoop] at h
    · by_cases h2 : k0 = "properties"
      · subst h2
        cases v0 with
        | vMap props =>
          simp only [translateLoop, reduceIte] at h
          cases hcp : convertProperties ns props with
          | none => rw [hcp] at h; cases h
          | some props2 =>
            rw [hcp] at h
            rcases List.mem_cons.mp hmem with he | hm
            · rw [Prod.mk.injEq] at he
              obtain ⟨rfl, rfl⟩ := he
              refine ⟨fun hk => absurd hk (by decide), ?_,
                fun _ hk _ => absurd hk (by decide),
                fun _ hk _ => absurd hk (by decide)⟩
              intro props1 _ hv
              injection hv with hv2
              subst hv2
              simp [hcp]
            · exact ih _ _ h k v hm
        | vStr s =>
          simp only [translateLoop, reduceIte] at h
          rcases List.mem_cons.mp hmem with he | hm
          · rw [Prod.mk.injEq] at he
            obtain ⟨rfl, rfl⟩ := he
            exact ⟨fun hk => absurd hk (by decide),
              fun _ _ hv => Val.noConfusion hv,
              fun _ hk _ => absurd hk (by decide),
              fun _ hk _ => absurd hk (by decide)⟩
          · exact ih _ _ h k v hm
        | vInt n =>
          simp only [translateLoop, reduceIte] at h
          rcases List.mem_cons.mp hmem with he | hm
          · rw [Prod.mk.injEq] at he
            obtain ⟨rfl, rfl⟩ := he
            exact ⟨fun hk => absurd hk (by decide),
              fun _ _ hv => Val.noConfusion hv,
              fun _ hk _ => absurd hk (by decide),
              fun _ hk _ => absurd hk (by decide)⟩
          · exact ih _ _ h k v hm
        | vBool b =>
          simp only [translateLoop, reduceIte] at h
          rcases List.mem_cons.mp hmem with he | hm
          · rw [Prod.mk.injEq] at he
            obtain ⟨rfl, rfl⟩ := he
            exact ⟨fun hk => absurd hk (by decide),
              fun _ _ hv => Val.noConfusion hv,
              fun _ hk _ => absurd hk (by decide),
              fun _ hk _ => absurd hk (by decide)⟩
          · exact ih _ _ h k v hm
        | vNull =>
          simp only [translateLoop, reduceIte] at h
          rcases List.mem_cons.mp hmem with he | hm
          · rw [Prod.mk.injEq] at he
            obtain ⟨rfl, rfl⟩ := he
            exact ⟨fun hk => absurd hk (by decide),
              fun _ _ hv => Val.noConfusion hv,
              fun _ hk _ => absurd hk (by decide),
              fun _ hk _ => absurd hk (by decide)⟩
          · exact ih _ _ h k v hm
        | vNaN =>
          simp only [translateLoop, reduceIte] at h
          rcases List.mem_cons.mp hmem with he | hm
          · rw [Prod.mk.injEq] at he
            obtain ⟨rfl, rfl⟩ := he
            exact ⟨fun hk => absurd hk (by decide),
              fun _ _ hv => Val.noConfusion hv,
              fun _ hk _ => absurd hk (by decide),
              fun _ hk _ => absurd hk (by decide)⟩
          · exact ih _ _ h k v hm
        | vArr l =>
          simp only [translateLoop, reduceIte] at h
          rcases List.mem_cons.mp hmem with he | hm
          · rw [Prod.mk.injEq] at he
            obtain ⟨rfl, rfl⟩ := he
            exact ⟨fun hk => absurd hk (by decide),
              fun _ _ hv => Val.noConfusion hv,
              fun _ hk _ => absurd hk (by decide),
              fun _ hk _ => absurd hk (by decide)⟩
          · exact ih _ _ h k v hm
      · by_cases h3 : k0 = "items"
        · subst h3
          cases v0 with
          | vMap items =>
            simp only [translateLoop, reduceIte] at h
            cases hti : toJSONSchema ns items with
            | none => rw [hti] at h; cases h
            | some items2 =>
              rw [hti] at h
              rcases List.mem_cons.mp hmem with he | hm
              · rw [Prod.mk.injEq] at he
                obtain ⟨rfl, rfl⟩ := he
                refine ⟨fun hk => absurd hk (by decide),
                  fun _ hk _ => absurd hk (by decide), ?_,
                  fun _ hk _ => absurd hk (by decide)⟩
                intro items1 _ hv
                injection hv with hv2
                subst hv2
                simp [hti]
              · exact ih _ _ h k v hm
          | vStr s =>
            simp only [translateLoop, reduceIte] at h
            rcases List.mem_cons.mp hmem with he | hm
            · rw [Prod.mk.injEq] at he
              obtain ⟨rfl, rfl⟩ := he
              exact ⟨fun hk => absurd hk (by decide),
                fun _ hk _ => absurd hk (by decide),
                fun _ _ hv => Val.noConfusion hv,
                fun _ hk _ => absurd hk (by decide)⟩
            · exact ih _ _ h k v hm
          | vInt n =>
            simp only [translateLoop, reduceIte] at h
            rcases List.mem_cons.mp hmem with he | hm
            · rw [Prod.mk.injEq] at he
              obtain ⟨rfl, rfl⟩ := he
              exact ⟨fun hk => absurd hk (by decide),
                fun _ hk _ => absurd hk (by decide),
                fun _ _ hv => Val.noConfusion hv,
                fun _ hk _ => absurd hk (by decide)⟩
            · exact ih _ _ h k v hm
          | vBool b =>
            simp only [translateLoop, reduceIte] at h
            rcases List.mem_cons.mp hmem with he | hm
            · rw [Prod.mk.injEq] at he
              obtain ⟨rfl, rfl⟩ := he
              exact ⟨fun hk => absurd hk (by decide),
                fun _ hk _ => absurd hk (by decide),
                fun _ _ hv => Val.noConfusion hv,
                fun _ hk _ => absurd hk (by decide)⟩
            · exact ih _ _ h k v hm
          | vNull =>
            simp only [translateLoop, reduceIte] at h
            rcases List.mem_cons.mp hmem with he | hm
            · rw [Prod.mk.injEq] at he
              obtain ⟨rfl, rfl⟩ := he
              exact ⟨fun hk => absurd hk (by decide),
                fun _ hk _ => absurd hk (by decide),
                fun _ _ hv => Val.noConfusion hv,
                fun _ hk _ => absurd hk (by decide)⟩
            · exact ih _ _ h k v hm
          | vNaN =>
            simp only [translateLoop, reduceIte] at h
            rcases List.mem_cons.mp hmem with he | hm
            · rw [Prod.mk.injEq] at he
              obtain ⟨rfl, rfl⟩ := he
              exact ⟨fun hk => absurd hk (by decide),
                fun _ hk _ => absurd hk (by decide),
                fun _ _ hv => Val.noConfusion hv,
                fun _ hk _ => absurd hk (by decide)⟩
            · exact ih _ _ h k v hm
          | vArr l =>
            simp only [translateLoop, reduceIte] at h
            rcases List.mem_cons.mp hmem with he | hm
            · rw [Prod.mk.injEq] at he
              obtain ⟨rfl, rfl⟩ := he
              exact ⟨fun hk => absurd hk (by decide),
                fun _ hk _ => absurd hk (by decide),
                fun _ _ hv => Val.noConfusion hv,
                fun _ hk _ => absurd hk (by decide)⟩
            · exact ih _ _ h k v hm
        · by_cases h4 : k0 = "allOf"
          · subst h4
            cases v0 with
            | vArr elems =>
              simp only [translateLoop, reduceIte] at h
              cases hca : convertAllOf ns elems with
              | none => rw [hca] at h; cases h
              | some elems2 =>
                rw [hca] at h
                rcases List.mem_cons.mp hmem with he | hm
                · rw [Prod.mk.injEq] at he
                  obtain ⟨rfl, rfl⟩ := he
                  refine ⟨fun hk => absurd hk (by decide),
                    fun _ hk _ => absurd hk (by decide),
                    fun _ hk _ => absurd hk (by decide), ?_⟩
                  intro elems1 _ hv
                  injection hv with hv2
                  subst hv2
                  simp [hca]
                · exact ih _ _ h k v hm
            | vStr s =>
              simp only [translateLoop, reduceIte] at h
              rcases List.mem_cons.mp hmem with he | hm
              · rw [Prod.mk.injEq] at he
                obtain ⟨rfl, rfl⟩ := he
                exact ⟨fun hk => absurd hk (by decide),
                  fun _ hk _ => absurd hk (by decide),
                  fun _ hk _ => absurd hk (by decide),
                  fun _ _ hv => Val.noConfusion hv⟩
              · exact ih _ _ h k v hm
            | vInt n =>
              simp only [translateLoop, reduceIte] at h
              rcases List.mem_cons.mp hmem with he | hm
              · rw [Prod.mk.injEq] at he
                obtain ⟨rfl, rfl⟩ := he
                exact ⟨fun hk => absurd hk (by decide),
                  fun _ hk _ => absurd hk (by decide),
                  fun _ hk _ => absurd hk (by decide),
                  fun _ _ hv => Val.noConfusion hv⟩
              · exact ih _ _ h k v hm
            | vBool b =>
              simp only [translateLoop, reduceIte] at h
              rcases List.mem_cons.mp hmem with he | hm
              · rw [Prod.mk.injEq] at he
                obtain ⟨rfl, rfl⟩ := he
                exact ⟨fun hk => absurd hk (by decide),
                  fun _ hk _ => absurd hk (by decide),
                  fun _ hk _ => absurd hk (by decide),
                  fun _ _ hv => Val.noConfusion hv⟩
              · exact ih _ _ h k v hm
            | vNull =>
              simp only [translateLoop, reduceIte] at h
              rcases List.mem_cons.mp hmem with he | hm
              · rw [Prod.mk.injEq] at he
                obtain ⟨rfl, rfl⟩ := he
                exact ⟨fun hk => absurd hk (by decide),
                  fun _ hk _ => absurd hk (by decide),
                  fun _ hk _ => absurd hk (by decide),
                  fun _ _ hv => Val.noConfusion hv⟩
              · exact ih _ _ h k v hm
            | vNaN =>
              simp only [translateLoop, reduceIte] at h
              rcases List.mem_cons.mp hmem with he | hm
              · rw [Prod.mk.injEq] at he
                obtain ⟨rfl, rfl⟩ := he
                exact ⟨fun hk => absurd hk (by decide),
                  fun _ hk _ => absurd hk (by decide),
                  fun _ hk _ => absurd hk (by decide),
                  fun _ _ hv => Val.noConfusion hv⟩
              · exact ih _ _ h k v hm
            | vMap mm =>
              simp only [translateLoop, reduceIte] at h
              rcases List.mem_cons.mp hmem with he | hm
              · rw [Prod.mk.injEq] at he
                obtain ⟨rfl, rfl⟩ := he
                exact ⟨fun hk => absurd hk (by decide),
                  fun _ hk _ => absurd hk (by decide),
                  fun _ hk _ => absurd hk (by decide),
                  fun _ _ hv => Val.noConfusion hv⟩
              · exact ih _ _ h k v hm
          · rw [translateLoop.eq_def] at h
            simp only [if_neg h1, if_neg h2, if_neg h3, if_neg h4] at h
            rcases List.mem_cons.mp hmem with he | hm
            · rw [Prod.mk.injEq] at he
              obtain ⟨rfl, rfl⟩ := he
              exact ⟨fun hk => absurd hk h1, fun _ hk _ => absurd hk h2,
                fun _ hk _ => absurd hk h3, fun _ hk _ => absurd hk h4⟩
            · exact ih _ _ h k v hm

theorem translate_total_aux (ns : String) :
    ∀ (n : Nat),
    (∀ (m : List (String × Val)), sizeOf m ≤ n → wellRefEntries m = true →
      ∀ acc, (translateLoop ns acc m).isSome) ∧
    (∀ (ps : List (String × Val)), sizeOf ps ≤ n → wellRefProps ps = true →
      (convertProperties ns ps).isSome) ∧
    (∀ (l : List Val), sizeOf l ≤ n → wellRefAllOf l = true →
      (convertAllOf ns l).isSome) := by
  intro n
  induction n with
  | zero =>
    refine ⟨fun m hm _ _ => ?_, fun ps hps _ => ?_, fun l hl _ => ?_⟩
    · exfalso; cases m <;> simp at hm
    · exfalso; cases ps <;> simp at hps
    · exfalso; cases l <;> simp at hl
  | succ n ih =>
    obtain ⟨ihL, ihP, ihA⟩ := ih
    refine ⟨?_, ?_, ?_⟩
    · intro m hsize hwell acc
      cases m with
      | nil => simp [translateLoop]
      | cons p rest =>
        obtain ⟨k, v⟩ := p
        simp only [List.cons.sizeOf_spec, Prod.mk.sizeOf_spec] at hsize
        rw [wellRefEntries.eq_def] at hwell
        simp only [Bool.and_eq_true] at hwell
        obtain ⟨hhead, hrest⟩ := hwell
        have hszrest : sizeOf rest ≤ n := by omega
        by_cases h1 : k = "$ref"
        · subst h1
          cases v with
          | vStr s =>
            simp only [translateLoop, if_pos]
            exact ihL rest hszrest hrest _
          | vInt i => simp at hhead
          | vBool b => simp at hhead
          | vNull => simp at hhead
          | vNaN => simp at hhead
          | vMap mm => simp at hhead
          | vArr l => simp at hhead
        · by_cases h2 : k = "properties"
          · subst h2
            cases v with
            | vMap props =>
              simp only [Val.vMap.sizeOf_spec] at hsize
              simp at hhead
              obtain ⟨props2, hcp⟩ := Option.isSome_iff_exists.mp
                (ihP props (by omega) hhead)
              simp only [translateLoop, reduceIte, hcp]
              exact ihL rest hszrest hrest _
            | vStr s =>
              simp only [translateLoop, reduceIte]
              exact ihL rest hszrest hrest _
            | vInt i =>
              simp only [translateLoop, reduceIte]
              exact ihL rest hszrest hrest _
            | vBool b =>
              simp only [translateLoop, reduceIte]
              exact ihL rest hszrest hrest _
            | vNull =>
              simp only [translateLoop, reduceIte]
              exact ihL rest hszrest hrest _
            | vNaN =>
              simp only [translateLoop, reduceIte]
              exact ihL rest hszrest hrest _
            | vArr l =>
              simp only [translateLoop, reduceIte]
              exact ihL rest hszrest hrest _
          · by_cases h3 : k = "items"
            · subst h3
              cases v with
              | vMap items =>
                simp only [Val.vMap.sizeOf_spec] at hsize
                simp at hhead
                obtain ⟨items2, hti⟩ := Option.isSome_iff_exists.mp
                  (ihL items (by omega) hhead [("$schema", Val.vStr draftMarker)])
                simp only [translateLoop, reduceIte, toJSONSchema, hti]
                exact ihL rest hszrest hrest _
              | vStr s =>
                simp only [translateLoop, reduceIte]
                exact ihL rest hszrest hrest _
              | vInt i =>
                simp only [translateLoop, reduceIte]
                exact ihL rest hszrest hrest _
              | vBool b =>
                simp only [translateLoop, reduceIte]
                exact ihL rest hszrest hrest _
              | vNull =>
                simp only [translateLoop, reduceIte]
                exact ihL rest hszrest hrest _
              | vNaN =>
                simp only [translateLoop, reduceIte]
                exact ihL rest hszrest hrest _
              | vArr l =>
                simp only [translateLoop, reduceIte]
                exact ihL rest hszrest hrest _
            · by_cases h4 : k = "allOf"
              · subst h4
                cases v with
                | vArr elems =>
                  simp only [Val.vArr.sizeOf_spec] at hsize
                  simp at hhead
                  obtain ⟨elems2, hca⟩ := Option.isSome_iff_exists.mp
                    (ihA elems (by omega) hhead)
                  simp only [translateLoop, reduceIte, hca]
                  exact ihL rest hszrest hrest _
                | vStr s =>
                  simp only [translateLoop, reduceIte]
                  exact ihL rest hszrest hrest _
                | vInt i =>
                  simp only [translateLoop, reduceIte]
                  exact ihL rest hszrest hrest _
                | vBool b =>
                  simp only [translateLoop, reduceIte]
                  exact ihL rest hszrest hrest _
                | vNull =>
                  simp only [translateLoop, reduceIte]
                  exact ihL rest hszrest hrest _
                | vNaN =>
                  simp only [translateLoop, reduceIte]
                  exact ihL rest hszrest hrest _
                | vMap mm =>
                  simp only [translateLoop, reduceIte]
                  exact ihL rest hszrest hrest _
              · rw [translateLoop.eq_def]
                simp only [if_neg h1, if_neg h2, if_neg h3, if_neg h4]
                exact ihL rest hszrest hrest _
    · intro ps hsize hwell
      cases ps with
      | nil => simp [convertProperties]
      | cons p rest =>
        obtain ⟨name, pd⟩ := p
        simp only [List.cons.sizeOf_spec, Prod.mk.sizeOf_spec] at hsize
        rw [wellRefProps.eq_def] at hwell
        simp only [Bool.and_eq_true] at hwell
        obtain ⟨hhead, hrest⟩ := hwell
        have hszrest : sizeOf rest ≤ n := by omega
        cases pd with
        | vMap pm =>
          simp only [Val.vMap.sizeOf_spec] at hsize
          simp at hhead
          obtain ⟨t, ht⟩ := Option.isSome_iff_exists.mp
            (ihL pm (by omega) hhead [("$schema", Val.vStr draftMarker)])
          obtain ⟨r, hr⟩ := Option.isSome_iff_exists.mp (ihP rest hszrest hrest)
          simp [convertProperties, toJSONSchema, ht, hr]
        | vStr s => simpa [convertProperties] using ihP rest hszrest hrest
        | vInt i => simpa [convertProperties] using ihP rest hszrest hrest
        | vBool b => simpa [convertProperties] using ihP rest hszrest hrest
        | vNull => simpa [convertProperties] using ihP rest hszrest hrest
        | vNaN => simpa [convertProperties] using ihP rest hszrest hrest
        | vArr l => simpa [convertProperties] using ihP rest hszrest hrest
    · intro l hsize hwell
      cases l with
      | nil => simp [convertAllOf]
      | cons v rest =>
        simp only [List.cons.sizeOf_spec] at hsize
        rw [wellRefAllOf.eq_def] at hwell
        simp only [Bool.and_eq_true] at hwell
        obtain ⟨hhead, hrest⟩ := hwell
        have hszrest : sizeOf rest ≤ n := by omega
        obtain ⟨r, hr⟩ := Option.isSome_iff_exists.mp (ihA rest hszrest hrest)
        cases v with
        | vMap m =>
          simp only [Val.vMap.sizeOf_spec] at hsize
          simp at hhead
          obtain ⟨t, ht⟩ := Option.isSome_iff_exists.mp
            (ihL m (by omega) hhead [("$schema", Val.vStr draftMarker)])
          simp [convertAllOf, toJSONSchema, ht, hr]
        | vStr s => simp [convertAllOf, hr]
        | vInt i => simp [convertAllOf, hr]
        | vBool b => simp [convertAllOf, hr]
        | vNull => simp [convertAllOf, hr]
        | vNaN => simp [convertAllOf, hr]
        | vArr l2 => simp [convertAllOf, hr]

theorem toJSONSchema_total (ns : String) (m : List (String × Val))
    (h : wellRefEntries m = true) : (toJSONSchema ns m).isSome := by
  rw [toJSONSchema]
  exact (translate_total_aux ns (sizeOf m)).1 m (Nat.le_refl _) h _

theorem convertAllOf_forall2 (ns : String) :
    ∀ (elems elems2 : List Val), convertAllOf ns elems = some elems2 →
    List.Forall₂ (fun x y =>
      (∃ mm t, x = Val.vMap mm ∧ toJSONSchema ns mm = some t ∧
        y = Val.vMap t) ∨
      ((∀ mm, x ≠ Val.vMap mm) ∧ y = Val.vNull)) elems elems2 := by
  intro elems
  induction elems with
  | nil =>
    intro elems2 h
    simp only [convertAllOf] at h
    cases h
    exact List.Forall₂.nil
  | cons v rest ih =>
    intro elems2 h
    cases v with
    | vMap m =>
      simp only [convertAllOf] at h
      cases ht : toJSONSchema ns m with
      | none => rw [ht] at h; cases h
      | some t =>
        rw [ht] at h
        cases hr : convertAllOf ns rest with
        | none => rw [hr] at h; cases h
        | some r =>
          rw [hr] at h
          cases h
          exact List.Forall₂.cons (Or.inl ⟨m, t, rfl, ht, rfl⟩) (ih r hr)
    | vStr s =>
      simp only [convertAllOf] at h
      cases hr : convertAllOf ns rest with
      | none => rw [hr] at h; cases h
      | some r =>
        rw [hr] at h
        cases h
        exact List.Forall₂.cons
          (Or.inr ⟨fun mm hv => Val.noConfusion hv, rfl⟩) (ih r hr)
    | vInt n =>
      simp only [convertAllOf] at h
      cases hr : convertAllOf ns rest with
      | none => rw [hr] at h; cases h
      | some r =>
        rw [hr] at h
        cases h
        exact List.Forall₂.cons
          (Or.inr ⟨fun mm hv => Val.noConfusion hv, rfl⟩) (ih r hr)
    | vBool b =>
      simp only [convertAllOf] at h
      cases hr : convertAllOf ns rest with
      | none => rw [hr] at h; cases h
      | some r =>
        rw [hr] at h
        cases h
        exact List.Forall₂.cons
          (Or.inr ⟨fun mm hv => Val.noConfusion hv, rfl⟩) (ih r hr)
    | vNull =>
      simp only [convertAllOf] at h
      cases hr : convertAllOf ns rest with
      | none => rw [hr] at h; cases h
      | some r =>
        rw [hr] at h
        cases h
        exact List.Forall₂.cons
          (Or.inr ⟨fun mm hv => Val.noConfusion hv, rfl⟩) (ih r hr)
    | vNaN =>
      simp only [convertAllOf] at h
      cases hr : convertAllOf ns rest with
      | none => rw [hr] at h; cases h
      | some r =>
        rw [hr] at h
        cases h
        exact List.Forall₂.cons
          (Or.inr ⟨fun mm hv => Val.noConfusion hv, rfl⟩) (ih r hr)
    | vArr l =>
      simp only [convertAllOf] at h
      cases hr : convertAllOf ns rest with
      | none => rw [hr] at h; cases h
      | some r =>
        rw [hr] at h
        cases h
        exact List.Forall₂.cons
          (Or.inr ⟨fun mm hv => Val.noConfusion hv, rfl⟩) (ih r hr)

theorem convertProperties_lookup (ns : String) :
    ∀ (props props2 : List (String × Val)),
    (props.map Prod.fst).Nodup →
    convertProperties ns props = some props2 →
    ∀ name pm, lookup props name = some (.vMap pm) →
    ∃ t, toJSONSchema ns pm = some t ∧ lookup props2 name = some (.vMap t) := by
  intro props
  induction props with
  | nil => intro props2 _ _ name pm hl; simp [lookup] at hl
  | cons p rest ih =>
    intro props2 hnodup h name pm hl
    obtain ⟨n0, d0⟩ := p
    simp only [List.map_cons, List.nodup_cons] at hnodup
    by_cases hn : n0 = name
    · subst hn
      simp only [lookup, if_pos rfl] at hl
      cases hl
      simp only [convertProperties] at h
      cases ht : toJSONSchema ns pm with
      | none => rw [ht] at h; cases h
      | some t =>
        rw [ht] at h
        cases hr : convertProperties ns rest with
        | none => rw [hr] at h; cases h
        | some r =>
          rw [hr] at h
          cases h
          exact ⟨t, rfl, by simp [lookup]⟩
    · simp only [lookup, if_neg hn] at hl
      cases d0 with
      | vMap pm0 =>
        simp only [convertProperties] at h
        cases ht : toJSONSchema ns pm0 with
        | none => rw [ht] at h; cases h
        | some t =>
          rw [ht] at h
          cases hr : convertProperties ns rest with
          | none => rw [hr] at h; cases h
          | some r =>
            rw [hr] at h
            cases h
            obtain ⟨t', ht', hl'⟩ := ih r hnodup.2 hr name pm hl
            exact ⟨t', ht', by simp [lookup, hn, hl']⟩
      | vStr s => exact ih props2 hnodup.2 (by simpa [convertProperties] using h) name pm hl
      | vInt n1 => exact ih props2 hnodup.2 (by simpa [convertProperties] using h) name pm hl
      | vBool b => exact ih props2 hnodup.2 (by simpa [convertProperties] using h) name pm hl
      | vNull => exact ih props2 hnodup.2 (by simpa [convertProperties] using h) name pm hl
      | vNaN => exact ih props2 hnodup.2 (by simpa [convertProperties] using h) name pm hl
      | vArr l => exact ih props2 hnodup.2 (by simpa [convertProperties] using h) name pm hl

/-! ## Suite bookkeeping helpers -/

theorem foldl_count {α : Type} (passed : α → Bool) :
    ∀ (l : List α) (init : Nat × Nat),
    ((l.foldl (fun pf r => if passed r then (pf.1 + 1, pf.2)
        else (pf.1, pf.2 + 1)) init).1 +
     (l.foldl (fun pf r => if passed r then (pf.1 + 1, pf.2)
        else (pf.1, pf.2 + 1)) init).2) = init.1 + init.2 + l.length := by
  intro l
  induction l with
  | nil => intro init; simp
  | cons r rest ih =>
    intro init
    simp only [List.foldl_cons, List.length_cons]
    by_cases hp : passed r = true
    · rw [hp]
      simp only [if_true]
      rw [ih]
      simp only []
      omega
    · rw [Bool.not_eq_true] at hp
      rw [hp]
      simp only [Bool.false_eq_true, if_false]
      rw [ih]
      simp only []
      omega

theorem append_ne_empty_left {a b : String} (ha : a ≠ "") : a ++ b ≠ "" := by
  intro h
  apply ha
  have hd := congrArg String.data h
  simp only [String.data_append] at hd
  have h2 : a.data = [] := (List.append_eq_nil.mp (by simpa using hd)).1
  cases a
  simp_all

theorem vresultErrString_ne_empty {e : VResult} (h : e ≠ .pass) :
    vresultErrString e ≠ "" := by
  cases e with
  | unknownSchema n =>
    exact append_ne_empty_left (by decide)
  | parseError m =>
    exact append_ne_empty_left (by decide)
  | constraintViolation m =>
    exact append_ne_empty_left (by decide)
  | pass => exact absurd rfl h

/-! ## The claims -/

/-- C4: for every schema name not present in the compiled-validator map
and every payload, `ValidateMessage` / `ValidateResponse` return the
"schema not found" error and never a pass verdict. -/
theorem c4_unknown_schema_error (sv : Val → Val → Option String)
    (v : AsyncAPIValidator) (w : OpenAPIValidator) (name : String)
    (p : Payload) (hv : lookup v.schemas name = none)
    (hw : lookup w.schemas name = none) :
    ValidateMessage sv v name p = .unknownSchema name ∧
    ValidateResponse sv w name p = .unknownSchema name ∧
    ValidateMessage sv v name p ≠ .pass ∧
    ValidateResponse sv w name p ≠ .pass := by
  refine ⟨?_, ?_, ?_, ?_⟩ <;>
    simp [ValidateMessage, ValidateMessageSt, ValidateResponse,
      ValidateResponseSt, hv, hw]

/-- Witness for C4 at `"NoSuchSchema"` against empty validators. -/
theorem c4_witness :
    ValidateMessage (fun _ _ => none) (AsyncAPIValidator.mk [] [] ⟨[]⟩)
      "NoSuchSchema" ⟨"null", some .vNull⟩ = .unknownSchema "NoSuchSchema" ∧
    ValidateResponse (fun _ _ => none) (OpenAPIValidator.mk [] ⟨[]⟩)
      "NoSuchSchema" ⟨"null", some .vNull⟩ = .unknownSchema "NoSuchSchema" ∧
    ValidateMessage (fun _ _ => none) (AsyncAPIValidator.mk [] [] ⟨[]⟩)
      "NoSuchSchema" ⟨"null", some .vNull⟩ ≠ .pass ∧
    ValidateResponse (fun _ _ => none) (OpenAPIValidator.mk [] ⟨[]⟩)
      "NoSuchSchema" ⟨"null", some .vNull⟩ ≠ .pass :=
  c4_unknown_schema_error (fun _ _ => none) (AsyncAPIValidator.mk [] [] ⟨[]⟩)
    (OpenAPIValidator.mk [] ⟨[]⟩) "NoSuchSchema" ⟨"null", some .vNull⟩
    rfl rfl

/-- C6: validation is idempotent and side-effect-free — a call returns
the validator state unchanged (no field of the receiver is written), so
a second identical call yields the identical result. -/
theorem c6_validation_idempotent (sv : Val → Val → Option String)
    (v : AsyncAPIValidator) (name : String) (p : Payload) :
    (ValidateMessageSt sv v name p).2 = v ∧
    ValidateMessage sv (ValidateMessageSt sv v name p).2 name p =
      ValidateMessage sv v name p := by
  have hst : (ValidateMessageSt sv v name p).2 = v := by
    cases hl : lookup v.schemas name with
    | none => simp [ValidateMessageSt, hl]
    | some schema =>
      cases hp : p.parsed with
      | none => simp [ValidateMessageSt, hl, hp]
      | some data =>
        cases hv : sv schema data <;> simp [ValidateMessageSt, hl, hp, hv]
  exact ⟨hst, by rw [hst]⟩

/-- C7: for a registered schema, a payload that does not parse yields the
parse-error kind and the compiled validator is never run (the result does
not depend on it); a constraint violation can only arise from a payload
that parsed; and the call leaves the validator unchanged. -/
theorem c7_parse_error_distinct (sv sv2 : Val → Val → Option String)
    (v : AsyncAPIValidator) (name : String) (p : Payload)
    (hreg : (lookup v.schemas name).isSome) :
    (p.parsed = none →
      ValidateMessage sv v name p = .parseError p.raw ∧
      ValidateMessage sv v name p = ValidateMessage sv2 v name p) ∧
    (∀ m, ValidateMessage sv v name p = .constraintViolation m →
      ∃ j, p.parsed = some j) ∧
    (ValidateMessageSt sv v name p).2 = v := by
  obtain ⟨schema, hs⟩ := Option.isSome_iff_exists.mp hreg
  refine ⟨?_, ?_, ?_⟩
  · intro hp
    constructor <;> simp [ValidateMessage, ValidateMessageSt, hs, hp]
  · intro m hm
    cases hp : p.parsed with
    | none => simp [ValidateMessage, ValidateMessageSt, hs, hp] at hm
    | some j => exact ⟨j, rfl⟩
  · cases hp : p.parsed with
    | none => simp [ValidateMessageSt, hs, hp]
    | some data =>
      cases hv : sv schema data <;> simp [ValidateMessageSt, hs, hp, hv]

/-- Witness for C7: one registered schema, a malformed payload. -/
theorem c7_witness :
    ValidateMessage (fun _ _ => none)
      (AsyncAPIValidator.mk [("S", .vMap [])] [] ⟨[]⟩) "S"
      (Payload.mk "not json" none) = .parseError "not json" ∧
    ValidateMessage (fun _ _ => none)
      (AsyncAPIValidator.mk [("S", .vMap [])] [] ⟨[]⟩) "S"
      (Payload.mk "not json" none) =
    ValidateMessage (fun _ _ => some "boom")
      (AsyncAPIValidator.mk [("S", .vMap [])] [] ⟨[]⟩) "S"
      (Payload.mk "not json" none) :=
  (c7_parse_error_distinct (fun _ _ => none) (fun _ _ => some "boom")
    (AsyncAPIValidator.mk [("S", .vMap [])] [] ⟨[]⟩) "S"
    (Payload.mk "not json" none) rfl).1 rfl

/-- C9: each `ValidateEvent` / `RunTest` call appends exactly one result,
the result passes exactly when its error string is empty, and the
summary's passed + failed counts always sum to the number of recorded
results. -/
theorem c9_suite_bookkeeping (sv : Val → Val → Option String)
    (es : EventContractTestSuite) (channel schema : String) (p : Payload)
    (cs : ContractTestSuite) (method path body : String)
    (reqErr : Option String) (doResult : Except String (Nat × Payload))
    (expectedStatus : Nat) (responseSchema : String) :
    ((ValidateEvent sv es channel schema p).2.results =
      es.results ++ [(ValidateEvent sv es channel schema p).1]) ∧
    ((ValidateEvent sv es channel schema p).1.passed = true ↔
      (ValidateEvent sv es channel schema p).1.error = "") ∧
    ((RunTest sv cs method path body reqErr doResult expectedStatus
        responseSchema).2.results =
      cs.results ++ [(RunTest sv cs method path body reqErr doResult
        expectedStatus responseSchema).1]) ∧
    ((RunTest sv cs method path body reqErr doResult expectedStatus
        responseSchema).1.passed = true ↔
      (RunTest sv cs method path body reqErr doResult expectedStatus
        responseSchema).1.error = "") ∧
    (∀ s : EventContractTestSuite,
      (eventSummary s).1 + (eventSummary s).2 = s.results.length) ∧
    (∀ s : ContractTestSuite,
      (contractSummary s).1 + (contractSummary s).2 = s.results.length) := by
  refine ⟨?_, ?_, ?_, ?_, ?_, ?_⟩
  · cases hvm : ValidateMessage sv es.validator schema p <;>
      simp [ValidateEvent, hvm]
  · simp only [ValidateEvent]
    cases hvm : ValidateMessage sv es.validator schema p with
    | pass => simp
    | unknownSchema n =>
      simp only []
      constructor
      · intro hp; cases hp
      · intro he
        exact absurd he (vresultErrString_ne_empty (by simp))
    | parseError m =>
      simp only []
      constructor
      · intro hp; cases hp
      · intro he
        exact absurd he (vresultErrString_ne_empty (by simp))
    | constraintViolation m =>
      simp only []
      constructor
      · intro hp; cases hp
      · intro he
        exact absurd he (vresultErrString_ne_empty (by simp))
  · cases reqErr with
    | some m => rfl
    | none =>
      cases doResult with
      | error m => rfl
      | ok sr =>
        obtain ⟨status, respBody⟩ := sr
        simp only [RunTest]
        by_cases hst : status ≠ expectedStatus
        · rw [if_pos hst]
        · rw [if_neg hst]
          by_cases hsc : responseSchema ≠ "" ∧ respBody.raw.length > 0
          · rw [if_pos hsc]
            cases hvr : ValidateResponse sv cs.validator responseSchema
              respBody <;> rfl
          · rw [if_neg hsc]
  · cases reqErr with
    | some m =>
      simp only [RunTest]
      constructor
      · intro hp; cases hp
      · intro he; exact absurd he (append_ne_empty_left (by decide))
    | none =>
      cases doResult with
      | error m =>
        simp only [RunTest]
        constructor
        · intro hp; cases hp
        · intro he; exact absurd he (append_ne_empty_left (by decide))
      | ok sr =>
        obtain ⟨status, respBody⟩ := sr
        simp only [RunTest]
        by_cases hst : status ≠ expectedStatus
        · rw [if_pos hst]
          constructor
          · intro hp; cases hp
          · intro he
            exact absurd he (append_ne_empty_left
              (append_ne_empty_left (append_ne_empty_left (by decide))))
        · rw [if_neg hst]
          by_cases hsc : responseSchema ≠ "" ∧ respBody.raw.length > 0
          · rw [if_pos hsc]
            cases hvr : ValidateResponse sv cs.validator responseSchema
                respBody with
            | pass => simp
            | unknownSchema n =>
              simp only []
              constructor
              · intro hp; cases hp
              · intro he; exact absurd he (append_ne_empty_left (by decide))
            | parseError m =>
              simp only []
              constructor
              · intro hp; cases hp
              · intro he; exact absurd he (append_ne_empty_left (by decide))
            | constraintViolation m =>
              simp only []
              constructor
              · intro hp; cases hp
              · intro he; exact absurd he (append_ne_empty_left (by decide))
          · simp [hsc]
  · intro s
    simpa [eventSummary] using
      foldl_count (fun r : EventTestResult => r.passed) s.results (0, 0)
  · intro s
    simpa [contractSummary] using
      foldl_count (fun r : ContractTestResult => r.passed) s.results (0, 0)

/-- C1: loading is two-pass — every named schema is registered before any
is compiled — so for any specification whose named schemas all register
and whose references all target some declared name, construction
succeeds and every schema is compiled, regardless of the order in which
the schemas are declared (the hypotheses are order-independent). -/
theorem c1_register_before_compile (spec : List (String × Val))
    (hreg : ∀ p ∈ specComponentSchemas spec, (translateEntry asyncNS p).isSome)
    (hrefs : ∀ p ∈ specComponentSchemas spec, ∀ t,
      translateEntry asyncNS p = some t → ∀ r ∈ refsOf t,
      ∃ q ∈ specComponentSchemas spec, r = asyncNS ++ q.1) :
    ∃ v, NewAsyncAPIValidator spec = .ok v ∧
      ∀ p ∈ specComponentSchemas spec, (lookup v.schemas p.1).isSome := by
  have hnp : ∀ p ∈ specComponentSchemas spec,
      entryPanics asyncNS p = false := by
    intro p hp
    have h := hreg p hp
    cases hd : p.2 with
    | vMap m =>
      cases hts : toJSONSchema asyncNS m with
      | none => simp [translateEntry, hd, hts] at h
      | some js => simp [entryPanics, hd, hts]
    | vStr s => simp [entryPanics, hd]
    | vInt i => simp [entryPanics, hd]
    | vBool b => simp [entryPanics, hd]
    | vNull => simp [entryPanics, hd]
    | vNaN => simp [entryPanics, hd]
    | vArr l => simp [entryPanics, hd]
  have hrefs2 : ∀ p ∈ specComponentSchemas spec, ∀ t,
      translateEntry asyncNS p = some t → ∀ r ∈ refsOf t,
      ∃ q ∈ specComponentSchemas spec, registerable asyncNS q = true ∧
        r = asyncNS ++ q.1 := by
    intro p hp t ht r hr
    obtain ⟨q, hq, hqr⟩ := hrefs p hp t ht r hr
    exact ⟨q, hq, by simpa [registerable] using hreg q hq, hqr⟩
  obtain ⟨v, hv, hchar⟩ := loadSpec_ok spec hnp hrefs2
  refine ⟨v, by simp only [NewAsyncAPIValidator]; exact hv, ?_⟩
  intro p hp
  rw [hchar p.1]
  have hpreg : registerable asyncNS p = true := by
    simpa [registerable] using hreg p hp
  have hmem : p.1 ∈ ((specComponentSchemas spec).filter
      (registerable asyncNS)).map Prod.fst :=
    List.mem_map_of_mem Prod.fst (List.mem_filter.mpr ⟨hp, hpreg⟩)
  rw [if_pos hmem]
  exact lastTranslation_isSome_of_mem asyncNS _ p hp hpreg

/-- Witness for C1: schema `A` forward-references `B`, declared after it,
and `B` references `A` back (mutual recursion); construction succeeds. -/
theorem c1_witness :
    ∃ v, NewAsyncAPIValidator
      [("components", .vMap [("schemas", .vMap
        [("A", .vMap [("$ref", .vStr "#/components/schemas/B")]),
         ("B", .vMap [("$ref", .vStr "#/components/schemas/A")])])])] =
      .ok v ∧
    ∀ p ∈ specComponentSchemas
      [("components", .vMap [("schemas", .vMap
        [("A", .vMap [("$ref", .vStr "#/components/schemas/B")]),
         ("B", .vMap [("$ref", .vStr "#/components/schemas/A")])])])],
      (lookup v.schemas p.1).isSome := by
  apply c1_register_before_compile
  · intro p hp
    simp only [specComponentSchemas, lookup, reduceIte, List.mem_cons,
      List.not_mem_nil, or_false] at hp
    rcases hp with rfl | rfl <;>
      simp [translateEntry, toJSONSchema, translateLoop, setKey, marshalOk,
        marshalOkEntries, lastSegment, splitOnChar, asyncNS]
  · intro p hp t ht r hr
    simp only [specComponentSchemas, lookup, reduceIte, List.mem_cons,
      List.not_mem_nil, or_false] at hp
    rcases hp with rfl | rfl
    · simp [translateEntry, toJSONSchema, translateLoop, setKey, marshalOk,
        marshalOkEntries, lastSegment, splitOnChar, asyncNS] at ht
      subst ht
      simp [refsOf, refsOfEntries, refsOfList] at hr
      subst hr
      exact ⟨("B", .vMap [("$ref", .vStr "#/components/schemas/A")]),
        by simp [specComponentSchemas, lookup], by decide⟩
    · simp [translateEntry, toJSONSchema, translateLoop, setKey, marshalOk,
        marshalOkEntries, lastSegment, splitOnChar, asyncNS] at ht
      subst ht
      simp [refsOf, refsOfEntries, refsOfList] at hr
      subst hr
      exact ⟨("A", .vMap [("$ref", .vStr "#/components/schemas/B")]),
        by simp [specComponentSchemas, lookup], by decide⟩

/-- C3: a schema whose translation references a resource identifier that
no registered schema provides makes construction fail: the compile pass
reports a compile error naming a schema, and no validator is returned. -/
theorem c3_missing_reference_fails (spec : List (String × Val))
    (hnp : ∀ p ∈ specComponentSchemas spec, entryPanics asyncNS p = false)
    (hnodup : ((specComponentSchemas spec).map Prod.fst).Nodup)
    (p : String × Val) (hp : p ∈ specComponentSchemas spec)
    (t : Val) (ht : translateEntry asyncNS p = some t)
    (r : String) (hr : r ∈ refsOf t)
    (hmiss : ∀ q ∈ specComponentSchemas spec,
      registerable asyncNS q = true → asyncNS ++ q.1 ≠ r) :
    ∃ n m, NewAsyncAPIValidator spec = .error (.compileErr n m) := by
  obtain ⟨n, m, h⟩ := loadSpec_fails spec hnp hnodup p hp t ht r hr hmiss
  exact ⟨n, m, by simp only [NewAsyncAPIValidator]; exact h⟩

/-- Witness for C3: schema `A` references undeclared `Nope`. -/
theorem c3_witness :
    ∃ n m, NewAsyncAPIValidator
      [("components", .vMap [("schemas", .vMap
        [("A", .vMap [("$ref", .vStr "#/components/schemas/Nope")])])])] =
      .error (.compileErr n m) := by
  refine c3_missing_reference_fails _ ?_ ?_
    ("A", .vMap [("$ref", .vStr "#/components/schemas/Nope")]) ?_
    (.vMap [("$schema", .vStr draftMarker),
      ("$ref", .vStr "synapse://asyncapi/Nope")]) ?_
    "synapse://asyncapi/Nope" ?_ ?_
  · intro q hq
    simp only [specComponentSchemas, lookup, reduceIte, List.mem_cons,
      List.not_mem_nil, or_false] at hq
    subst hq
    simp [entryPanics, toJSONSchema, translateLoop, setKey, lastSegment,
      splitOnChar, asyncNS]
  · simp [specComponentSchemas, lookup]
  · simp [specComponentSchemas, lookup]
  · simp [translateEntry, toJSONSchema, translateLoop, setKey, marshalOk,
      marshalOkEntries, lastSegment, splitOnChar, asyncNS, draftMarker]
  · simp [refsOf, refsOfEntries, refsOfList]
  · intro q hq hqreg
    simp only [specComponentSchemas, lookup, reduceIte, List.mem_cons,
      List.not_mem_nil, or_false] at hq
    subst hq
    simp [asyncNS]

/-- C10: a named entry that pass 1 skips silently — because its value is
not a mapping, or because `json.Marshal` rejects its translation — does
not fail construction: loading still succeeds, no schema is compiled
under that name, and validating against that name yields the
unknown-schema error, not a load-time failure. -/
theorem c10_skipped_entry_unknown_schema (spec : List (String × Val))
    (n : String) (d : Val) (hmem : (n, d) ∈ specComponentSchemas spec)
    (hskip : translateEntry asyncNS (n, d) = none)
    (hnodup : ((specComponentSchemas spec).map Prod.fst).Nodup)
    (hnpAll : ∀ p ∈ specComponentSchemas spec, entryPanics asyncNS p = false)
    (hrefs : ∀ p ∈ specComponentSchemas spec, ∀ t,
      translateEntry asyncNS p = some t → ∀ r ∈ refsOf t,
      ∃ q ∈ specComponentSchemas spec, registerable asyncNS q = true ∧
        r = asyncNS ++ q.1) :
    ∃ v, NewAsyncAPIValidator spec = .ok v ∧
      lookup v.schemas n = none ∧
      ∀ sv p, ValidateMessage sv v n p = .unknownSchema n := by
  obtain ⟨v, hv, hchar⟩ := loadSpec_ok spec hnpAll hrefs
  have hnotmem : n ∉ ((specComponentSchemas spec).filter
      (registerable asyncNS)).map Prod.fst := by
    intro hmem2
    obtain ⟨q, hq, hqn⟩ := List.mem_map.mp hmem2
    have hqmem := List.mem_of_mem_filter hq
    have hqreg : registerable asyncNS q = true := List.of_mem_filter hq
    have heq : q = (n, d) := nodup_keys_eq hnodup hqmem hmem (by simpa using hqn)
    rw [heq] at hqreg
    simp [registerable, hskip] at hqreg
  have hlook : lookup v.schemas n = none := by
    rw [hchar n, if_neg hnotmem]
  refine ⟨v, by simp only [NewAsyncAPIValidator]; exact hv, hlook, ?_⟩
  intro sv p
  simp [ValidateMessage, ValidateMessageSt, hlook]

/-- Witness for C10: the entry `Bad` is a plain string, not a mapping; it
is skipped, `Good` loads, and validating `Bad` reports unknown schema. -/
theorem c10_witness :
    ∃ v, NewAsyncAPIValidator
      [("components", .vMap [("schemas", .vMap
        [("Bad", .vStr "not a schema"),
         ("Good", .vMap [("type", .vStr "object")])])])] = .ok v ∧
      lookup v.schemas "Bad" = none ∧
      ∀ sv p, ValidateMessage sv v "Bad" p = .unknownSchema "Bad" := by
  refine c10_skipped_entry_unknown_schema _ _ (.vStr "not a schema")
    ?_ ?_ ?_ ?_ ?_
  · simp [specComponentSchemas, lookup]
  · simp [translateEntry]
  · simp [specComponentSchemas, lookup]
  · intro q hq
    simp only [specComponentSchemas, lookup, reduceIte, List.mem_cons,
      List.not_mem_nil, or_false] at hq
    rcases hq with rfl | rfl <;>
      simp [entryPanics, toJSONSchema, translateLoop, setKey]
  · intro q hq t ht r hr
    simp only [specComponentSchemas, lookup, reduceIte, List.mem_cons,
      List.not_mem_nil, or_false] at hq
    rcases hq with rfl | rfl
    · simp [translateEntry] at ht
    · simp [translateEntry, toJSONSchema, translateLoop, setKey, marshalOk,
        marshalOkEntries] at ht
      subst ht
      simp [refsOf, refsOfEntries, refsOfList] at hr

/-- C2: on a successfully translated node the translator rewrites `$ref`
to the namespace followed by the last path segment of the reference,
recursively translates map-valued `properties` (each map-valued property
translated under its name), map-valued `items` and list-valued `allOf`
(element order preserved, map elements translated, non-map elements
nulled), and copies every other keyword through unchanged in both
directions. -/
theorem c2_translator_keywords (ns : String) (m r : List (String × Val))
    (hnodup : (m.map Prod.fst).Nodup)
    (hres : toJSONSchema ns m = some r) :
    (∀ s, lookup m "$ref" = some (.vStr s) →
      lookup r "$ref" = some (.vStr (ns ++ lastSegment s))) ∧
    (∀ props, lookup m "properties" = some (.vMap props) →
      ∃ props2, convertProperties ns props = some props2 ∧
        lookup r "properties" = some (.vMap props2) ∧
        ∀ name pm, (props.map Prod.fst).Nodup →
          lookup props name = some (.vMap pm) →
          ∃ t, toJSONSchema ns pm = some t ∧
            lookup props2 name = some (.vMap t)) ∧
    (∀ items, lookup m "items" = some (.vMap items) →
      ∃ items2, toJSONSchema ns items = some items2 ∧
        lookup r "items" = some (.vMap items2)) ∧
    (∀ elems, lookup m "allOf" = some (.vArr elems) →
      ∃ elems2, convertAllOf ns elems = some elems2 ∧
        lookup r "allOf" = some (.vArr elems2) ∧
        List.Forall₂ (fun x y =>
          (∃ mm t, x = Val.vMap mm ∧ toJSONSchema ns mm = some t ∧
            y = Val.vMap t) ∨
          ((∀ mm, x ≠ Val.vMap mm) ∧ y = Val.vNull)) elems elems2) ∧
    (∀ k, k ≠ "$schema" → k ≠ "$ref" → k ≠ "properties" → k ≠ "items" →
      k ≠ "allOf" → lookup r k = lookup m k) := by
  rw [toJSONSchema] at hres
  have hlk := translateLoop_lookup ns m _ r hres
  have hshape := translateLoop_shape ns m _ r hres
  refine ⟨?_, ?_, ?_, ?_, ?_⟩
  · intro s hs
    rw [hlk "$ref", processedBinding_nodup ns m hnodup _ _ hs]
    simp [writeOf]
  · intro props hp
    have hmem := lookup_mem hp
    obtain ⟨props2, hcp⟩ := Option.isSome_iff_exists.mp
      ((hshape _ _ hmem).2.1 props rfl rfl)
    refine ⟨props2, hcp, ?_, ?_⟩
    · rw [hlk "properties", processedBinding_nodup ns m hnodup _ _ hp]
      simp [writeOf, hcp]
    · intro name pm hnd hpl
      exact convertProperties_lookup ns props props2 hnd hcp name pm hpl
  · intro items hi
    have hmem := lookup_mem hi
    obtain ⟨items2, hti⟩ := Option.isSome_iff_exists.mp
      ((hshape _ _ hmem).2.2.1 items rfl rfl)
    refine ⟨items2, hti, ?_⟩
    rw [hlk "items", processedBinding_nodup ns m hnodup _ _ hi]
    simp [writeOf, hti]
  · intro elems ha
    have hmem := lookup_mem ha
    obtain ⟨elems2, hca⟩ := Option.isSome_iff_exists.mp
      ((hshape _ _ hmem).2.2.2 elems rfl rfl)
    refine ⟨elems2, hca, ?_, convertAllOf_forall2 ns elems elems2 hca⟩
    rw [hlk "allOf", processedBinding_nodup ns m hnodup _ _ ha]
    simp [writeOf, hca]
  · intro k h1 h2 h3 h4 h5
    cases hlm : lookup m k with
    | some v =>
      rw [hlk k, processedBinding_nodup ns m hnodup _ _ hlm]
      simp [writeOf, h2, h3, h4, h5]
    | none =>
      rw [hlk k, processedBinding_not_mem ns m k
        ((lookup_eq_none_iff m k).mp hlm)]
      simp [lookup, Ne.symm h1]

/-- Witness for C2 at a node carrying a `$ref`, `properties`, `items`,
`allOf`, and a scalar keyword. -/
theorem c2_witness :
    (∀ s, lookup
        [("$ref", Val.vStr "#/components/schemas/OrderItem"),
         ("properties", .vMap [("a", .vMap [("type", .vStr "integer")])]),
         ("items", .vMap [("type", .vStr "string")]),
         ("allOf", .vArr [.vMap [("type", .vStr "object")]]),
         ("minimum", .vInt 0)] "$ref" = some (.vStr s) →
      lookup
        [("$schema", Val.vStr draftMarker),
         ("$ref", .vStr "synapse://asyncapi/OrderItem"),
         ("properties", .vMap [("a", .vMap [("$schema", .vStr draftMarker),
           ("type", .vStr "integer")])]),
         ("items", .vMap [("$schema", .vStr draftMarker),
           ("type", .vStr "string")]),
         ("allOf", .vArr [.vMap [("$schema", .vStr draftMarker),
           ("type", .vStr "object")]]),
         ("minimum", .vInt 0)] "$ref" =
        some (.vStr (asyncNS ++ lastSegment s))) ∧
    (∀ props, lookup
        [("$ref", Val.vStr "#/components/schemas/OrderItem"),
         ("properties", .vMap [("a", .vMap [("type", .vStr "integer")])]),
         ("items", .vMap [("type", .vStr "string")]),
         ("allOf", .vArr [.vMap [("type", .vStr "object")]]),
         ("minimum", .vInt 0)] "properties" = some (.vMap props) →
      ∃ props2, convertProperties asyncNS props = some props2 ∧
        lookup
          [("$schema", Val.vStr draftMarker),
           ("$ref", .vStr "synapse://asyncapi/OrderItem"),
           ("properties", .vMap [("a", .vMap [("$schema", .vStr draftMarker),
             ("type", .vStr "integer")])]),
           ("items", .vMap [("$schema", .vStr draftMarker),
             ("type", .vStr "string")]),
           ("allOf", .vArr [.vMap [("$schema", .vStr draftMarker),
             ("type", .vStr "object")]]),
           ("minimum", .vInt 0)] "properties" = some (.vMap props2) ∧
        ∀ name pm, (props.map Prod.fst).Nodup →
          lookup props name = some (.vMap pm) →
          ∃ t, toJSONSchema asyncNS pm = some t ∧
            lookup props2 name = some (.vMap t)) ∧
    (∀ items, lookup
        [("$ref", Val.vStr "#/components/schemas/OrderItem"),
         ("properties", .vMap [("a", .vMap [("type", .vStr "integer")])]),
         ("items", .vMap [("type", .vStr "string")]),
         ("allOf", .vArr [.vMap [("type", .vStr "object")]]),
         ("minimum", .vInt 0)] "items" = some (.vMap items) →
      ∃ items2, toJSONSchema asyncNS items = some items2 ∧
        lookup
          [("$schema", Val.vStr draftMarker),
           ("$ref", .vStr "synapse://asyncapi/OrderItem"),
           ("properties", .vMap [("a", .vMap [("$schema", .vStr draftMarker),
             ("type", .vStr "integer")])]),
           ("items", .vMap [("$schema", .vStr draftMarker),
             ("type", .vStr "string")]),
           ("allOf", .vArr [.vMap [("$schema", .vStr draftMarker),
             ("type", .vStr "object")]]),
           ("minimum", .vInt 0)] "items" = some (.vMap items2)) ∧
    (∀ elems, lookup
        [("$ref", Val.vStr "#/components/schemas/OrderItem"),
         ("properties", .vMap [("a", .vMap [("type", .vStr "integer")])]),
         ("items", .vMap [("type", .vStr "string")]),
         ("allOf", .vArr [.vMap [("type", .vStr "object")]]),
         ("minimum", .vInt 0)] "allOf" = some (.vArr elems) →
      ∃ elems2, convertAllOf asyncNS elems = some elems2 ∧
        lookup
          [("$schema", Val.vStr draftMarker),
           ("$ref", .vStr "synapse://asyncapi/OrderItem"),
           ("properties", .vMap [("a", .vMap [("$schema", .vStr draftMarker),
             ("type", .vStr "integer")])]),
           ("items", .vMap [("$schema", .vStr draftMarker),
             ("type", .vStr "string")]),
           ("allOf", .vArr [.vMap [("$schema", .vStr draftMarker),
             ("type", .vStr "object")]]),
           ("minimum", .vInt 0)] "allOf" = some (.vArr elems2) ∧
        List.Forall₂ (fun x y =>
          (∃ mm t, x = Val.vMap mm ∧ toJSONSchema asyncNS mm = some t ∧
            y = Val.vMap t) ∨
          ((∀ mm, x ≠ Val.vMap mm) ∧ y = Val.vNull)) elems elems2) ∧
    (∀ k, k ≠ "$schema" → k ≠ "$ref" → k ≠ "properties" → k ≠ "items" →
      k ≠ "allOf" →
      lookup
        [("$schema", Val.vStr draftMarker),
         ("$ref", .vStr "synapse://asyncapi/OrderItem"),
         ("properties", .vMap [("a", .vMap [("$schema", .vStr draftMarker),
           ("type", .vStr "integer")])]),
         ("items", .vMap [("$schema", .vStr draftMarker),
           ("type", .vStr "string")]),
         ("allOf", .vArr [.vMap [("$schema", .vStr draftMarker),
           ("type", .vStr "object")]]),
         ("minimum", .vInt 0)] k =
      lookup
        [("$ref", Val.vStr "#/components/schemas/OrderItem"),
         ("properties", .vMap [("a", .vMap [("type", .vStr "integer")])]),
         ("items", .vMap [("type", .vStr "string")]),
         ("allOf", .vArr [.vMap [("type", .vStr "object")]]),
         ("minimum", .vInt 0)] k) := by
  apply c2_translator_keywords
  · simp
  · simp [toJSONSchema, translateLoop, convertProperties, convertAllOf,
      setKey, lastSegment, splitOnChar, asyncNS, draftMarker]

/-- C8 is false as stated: on a node whose `$ref` value is not a string
the translator does not return a result — the unchecked type assertion
`ref := val.(string)` panics at runtime (modelled by `none`). -/
theorem c8_counterexample :
    toJSONSchema asyncNS [("$ref", .vInt 3)] = none := by
  simp [toJSONSchema, translateLoop]

/-- C8 amended: the translator is a pure total function on every parsed
node whose `$ref` values (at the positions the translator inspects) are
strings: it returns a translated node; unexpected shapes elsewhere — a
non-map `properties` or `items`, a non-list `allOf`, non-map `allOf`
elements — do not make it fail.  A non-string `$ref` panics. -/
theorem c8_translator_total (ns : String) (m : List (String × Val))
    (h : wellRefEntries m = true) : ∃ r, toJSONSchema ns m = some r :=
  Option.isSome_iff_exists.mp (toJSONSchema_total ns m h)

/-- Witness for C8 amended: a node with non-map `properties` and `items`,
an `allOf` with a non-map element, and a string `$ref`, translates. -/
theorem c8_witness :
    ∃ r, toJSONSchema asyncNS
      [("properties", .vStr "odd"), ("items", .vInt 1),
       ("allOf", .vArr [.vInt 2, .vMap [("$ref", .vStr "#/a/b")]]),
       ("$ref", .vStr "#/components/schemas/X")] = some r :=
  c8_translator_total asyncNS _
    (by simp [wellRefEntries, wellRefProps, wellRefAllOf])

/-- C5 is false as stated for a cross-file collision: two component files
each declaring `Foo` load without error, and the schema compiled under
`Foo` is the second file's translation — the later `AddResource`
silently overwrote the earlier registration. -/
theorem c5_counterexample :
    (exceptOk (NewOpenAPIValidator
      [⟨"a.yaml", false, .ok [("Foo", .vMap [("type", .vStr "integer")])]⟩,
       ⟨"b.yaml", false, .ok [("Foo", .vMap [("type", .vStr "string")])]⟩])).map
      (fun v => lookup v.schemas "Foo") =
    some (some (.vMap [("$schema", .vStr draftMarker),
      ("type", .vStr "string")])) := by
  simp [NewOpenAPIValidator, loadComponentSchemas, loadFilePass, fileActive,
    strEndsWith, registerPass, toJSONSchema, translateLoop, setKey, marshalOk,
    marshalOkEntries, addResource, compilePass, compile, refsOf,
    refsOfEntries, refsOfList, lookup, exceptOk, openNS, draftMarker]

/-- C5 amended: a name shared by several registerable declarations (in
particular across two component files) is not a load-time error: loading
succeeds, and the schema compiled under the shared name is the
translation of the last declaration processed — the later registration
silently overwrites the earlier one.  (Within a single document the YAML
parser already delivers a map with unique keys, so duplicates can only
reach the loader across files.) -/
theorem c5_amended_silent_overwrite (files : List SchemaFile)
    (hfiles : ∀ f ∈ files, fileActive f = true → ∃ es, f.content = .ok es)
    (hnp : ∀ p ∈ allEntries files, entryPanics openNS p = false)
    (hrefs : ∀ p ∈ allEntries files, ∀ t, translateEntry openNS p = some t →
      ∀ r ∈ refsOf t, ∃ q ∈ allEntries files,
        registerable openNS q = true ∧ r = openNS ++ q.1)
    (n : String) (hn : ∃ p ∈ allEntries files,
      registerable openNS p = true ∧ p.1 = n) :
    ∃ v, NewOpenAPIValidator files = .ok v ∧
      lookup v.schemas n =
        lastTranslation openNS (allEntries files) (openNS ++ n) ∧
      (lastTranslation openNS (allEntries files) (openNS ++ n)).isSome := by
  obtain ⟨v, hv, hchar⟩ := loadComponentSchemas_ok files hfiles hnp hrefs
  obtain ⟨p, hp, hpreg, hpn⟩ := hn
  have hmem : n ∈ ((allEntries files).filter
      (registerable openNS)).map Prod.fst := by
    rw [← hpn]
    exact List.mem_map_of_mem Prod.fst (List.mem_filter.mpr ⟨hp, hpreg⟩)
  refine ⟨v, by simp only [NewOpenAPIValidator]; exact hv, ?_, ?_⟩
  · rw [hchar n, if_pos hmem]
  · rw [← hpn]
    exact lastTranslation_isSome_of_mem openNS _ p hp hpreg

/-- Witness for C5 amended at the two-file collision on `Foo`. -/
theorem c5_amended_witness :
    ∃ v, NewOpenAPIValidator
      [⟨"a.yaml", false, .ok [("Foo", .vMap [("type", .vStr "integer")])]⟩,
       ⟨"b.yaml", false, .ok [("Foo", .vMap [("type", .vStr "string")])]⟩] =
      .ok v ∧
      lookup v.schemas "Foo" = lastTranslation openNS (allEntries
        [⟨"a.yaml", false, .ok [("Foo", .vMap [("type", .vStr "integer")])]⟩,
         ⟨"b.yaml", false, .ok [("Foo", .vMap [("type", .vStr "string")])]⟩])
        (openNS ++ "Foo") ∧
      (lastTranslation openNS (allEntries
        [⟨"a.yaml", false, .ok [("Foo", .vMap [("type", .vStr "integer")])]⟩,
         ⟨"b.yaml", false, .ok [("Foo", .vMap [("type", .vStr "string")])]⟩])
        (openNS ++ "Foo")).isSome := by
  apply c5_amended_silent_overwrite
  · intro f hf _
    simp only [List.mem_cons, List.not_mem_nil, or_false] at hf
    rcases hf with rfl | rfl <;> exact ⟨_, rfl⟩
  · intro p hp
    simp only [allEntries, fileActive, strEndsWith, List.mem_cons,
      List.not_mem_nil, or_false, List.append_nil, List.nil_append] at hp
    simp at hp
    rcases hp with rfl | rfl <;>
      simp [entryPanics, toJSONSchema, translateLoop, setKey]
  · intro p hp t ht r hr
    simp only [allEntries, fileActive, strEndsWith, List.mem_cons,
      List.not_mem_nil, or_false, List.append_nil, List.nil_append] at hp
    simp at hp
    rcases hp with rfl | rfl <;>
    · simp [translateEntry, toJSONSchema, translateLoop, setKey, marshalOk,
        marshalOkEntries] at ht
      subst ht
      simp [refsOf, refsOfEntries, refsOfList] at hr
  · refine ⟨("Foo", .vMap [("type", .vStr "integer")]), ?_, ?_, rfl⟩
    · simp [allEntries, fileActive, strEndsWith]
    · simp [registerable, translateEntry, toJSONSchema, translateLoop,
        setKey, marshalOk, marshalOkEntries]

end Synapse
